import Mathlib

/-!
# Verification of the kernel-cache subsystem
(`torch/csrc/jit/codegen/cuda/kernel_cache.h`)

A shallow embedding of the multi-level compilation cache: the LRU
input-identity cache (`InputsIdLookup`), the runtime-selection cache
(`FusionExecutorCache`), the execution plan (`FusionKernelRuntime`) and the
graph facade (`GraphCache`).  The sampled sources contain the class
declarations and the member functions defined inline in the header; member
functions whose bodies live outside the sampled sources are modelled from the
specification, as indicated in their doc comments.
-/

set_option maxHeartbeats 1000000

/-! ## FusionKernelRuntime and FusionExecutorCache -/

/-! ## GraphCache and the I/O permutation round trip -/

/-- Return value of `InputsIdLookup::lookupId` (`kernel_cache.h` lines
188-192): assigned identity `id`, evicted identity `evict_id` (0 when no
eviction happened), and the eviction flag. -/
structure IdLookupReturn where
  id : Nat := 0
  evict_id : Nat := 0
  eviction : Bool := false
  deriving Repr, DecidableEq

/-- State of `InputsIdLookup` (`kernel_cache.h` lines 180-239): fixed
capacity `max_cache_size_`, the monotone identity counter `current_id_`
(starting at 1), the LRU recency list `used_entry_` (freshly used entries at
the front), and the map `encoding_lookup_` from encoding string to identity,
modelled as an association list. -/
structure InputsIdLookup where
  max_cache_size_ : Nat
  current_id_ : Nat := 1
  used_entry_ : List String := []
  encoding_lookup_ : List (String × Nat) := []
  deriving Repr, DecidableEq

/-- Association-list lookup, modelling `std::unordered_map::find`. -/
def findKey {α β : Type} [DecidableEq α] (k : α) : List (α × β) → Option β
  | [] => none
  | p :: rest => if p.1 = k then some p.2 else findKey k rest

/-- Association-list removal of a key, modelling `std::unordered_map::erase`. -/
def eraseKey {α β : Type} [DecidableEq α] (k : α) (m : List (α × β)) :
    List (α × β) :=
  m.filter (fun p => decide (p.1 ≠ k))

/-- `InputsIdLookup` constructor (`kernel_cache.h` lines 184-185): the
capacity is fixed at construction (the C++ default argument is 100) and all
other members start from their declared initializers. -/
def freshInputsIdLookup (max_cache_size : Nat) : InputsIdLookup :=
  { max_cache_size_ := max_cache_size }

/-- Concrete canonical encodings used in examples and witnesses. -/
def encA : String := "A"

/-- Concrete canonical encoding. -/
def encB : String := "B"

/-- Concrete canonical encoding. -/
def encC : String := "C"

/-- Concrete canonical encoding. -/
def encX : String := "X"

/-- Concrete canonical encoding. -/
def encY : String := "Y"

/-- Concrete canonical encoding. -/
def encZ : String := "Z"

/-- The TORCH_INTERNAL_ASSERT message of
`FusionKernelRuntime::getMostRecentExecutorLog` (kernel_cache.h line 104). -/
def profilingAssertMsg : String :=
  "Executor log is only produced in profiling mode"

/-- The TORCH_INTERNAL_ASSERT condition of
`FusionExecutorCache::getMostRecentExecutorInfo` (kernel_cache.h line 322). -/
def nullRuntimeAssertMsg : String :=
  "INTERNAL ASSERT FAILED most_recent_runtime_ != nullptr"

/-- Modelled from the spec: the body of `InputsIdLookup::lookupId` is not
part of the sampled sources (only its declaration, `kernel_cache.h` lines
199-201).  Following spec section 4.1: the input configuration is serialized
into a canonical string (taken here as the argument `enc`; two input sets are
identity-equivalent exactly when their encodings are equal); a hit moves the
entry to the most-recently-used front of the list and returns its identity
with no eviction; a miss assigns the post-incremented counter value, inserts
a new front node and map entry, and if the list now exceeds capacity evicts
the back-of-list entry, removing its map entry and list node and reporting
its identity as `evict_id` with `eviction = true`. -/
def InputsIdLookup.lookupId (s : InputsIdLookup) (enc : String) :
    IdLookupReturn × InputsIdLookup :=
  match findKey enc s.encoding_lookup_ with
  | some i =>
      ({ id := i },
       { s with used_entry_ := enc :: s.used_entry_.erase enc })
  | none =>
      let newId := s.current_id_
      let lst := enc :: s.used_entry_
      let mp := (enc, newId) :: s.encoding_lookup_
      if s.max_cache_size_ < lst.length then
        let victim := lst.getLast (List.cons_ne_nil _ _)
        ({ id := newId,
           evict_id := (findKey victim mp).getD 0,
           eviction := true },
         { s with
             current_id_ := newId + 1,
             used_entry_ := lst.dropLast,
             encoding_lookup_ := eraseKey victim mp })
      else
        ({ id := newId },
         { s with
             current_id_ := newId + 1,
             used_entry_ := lst,
             encoding_lookup_ := mp })

/-- Present a sequence of encodings to the lookup cache in order, returning
the final state and the per-call results. -/
def lookupMany (s : InputsIdLookup) (encs : List String) :
    InputsIdLookup × List IdLookupReturn :=
  match encs with
  | [] => (s, [])
  | e :: rest =>
      let r := s.lookupId e
      let q := lookupMany r.2 rest
      (q.1, r.1 :: q.2)

/-- Identity-counter discipline of `InputsIdLookup` (`kernel_cache.h` lines
226-228): every identity stored in the map is positive and below the next
available counter value, and no identity is stored twice. -/
def Wf (s : InputsIdLookup) : Prop :=
  1 ≤ s.current_id_ ∧
  (∀ p ∈ s.encoding_lookup_, 1 ≤ p.2 ∧ p.2 < s.current_id_) ∧
  (s.encoding_lookup_.map Prod.snd).Nodup

instance (s : InputsIdLookup) : Decidable (Wf s) := by
  unfold Wf; infer_instance

/-- LRU ledger invariant (spec section 3): the recency list holds no
duplicates, the map keys are in one-to-one correspondence with the list
nodes, and the list never exceeds the configured capacity. -/
def Consistent (s : InputsIdLookup) : Prop :=
  s.used_entry_.Nodup ∧
  (s.encoding_lookup_.map Prod.fst).Perm s.used_entry_ ∧
  s.used_entry_.length ≤ s.max_cache_size_

instance (s : InputsIdLookup) : Decidable (Consistent s) := by
  unfold Consistent; infer_instance

/-- The association pairs created by inserting the encodings of `encs` in
order, starting at identity `n`. -/
def idPairs : List String → Nat → List (String × Nat)
  | [], _ => []
  | e :: rest, n => (e, n) :: idPairs rest (n + 1)

/-- A reachable lookup-cache state used as a concrete witness: capacity 1,
one live entry `A` with identity 1, next counter value 2. -/
def sampleLookupState : InputsIdLookup :=
  { max_cache_size_ := 1, current_id_ := 2,
    used_entry_ := [encA], encoding_lookup_ := [(encA, 1)] }

/-- Specialization class of an input configuration: the per-input-tensor
properties that are fixed for one unique computational graph (kernel_cache.h
note lines 278-285): stride order, broadcast flags (size-1 or not), rank and
scalar type (the scalar type encoded as a numeric tag). -/
structure SpecClass where
  rank : Nat
  dtype : Nat
  broadcast : List Bool
  stride_order : List Nat
  deriving Repr, DecidableEq

/-- An input configuration: its specialization class data plus the
per-dimension extents (the part that may vary without recompilation). -/
structure InputConfig where
  rank : Nat
  dtype : Nat
  broadcast : List Bool
  stride_order : List Nat
  extents : List Nat
  deriving Repr, DecidableEq

/-- The specialization class of a configuration forgets the extents. -/
def specClass (c : InputConfig) : SpecClass :=
  { rank := c.rank, dtype := c.dtype, broadcast := c.broadcast,
    stride_order := c.stride_order }

/-- Total element extent of a configuration: the launch-parameter-only
quantity of spec section 4.2. -/
def totalElements (c : InputConfig) : Nat :=
  c.extents.foldr (fun a b => a * b) 1

/-- Heuristics bundle (`FusionHeuristics`, held through `heuristics_` at
kernel_cache.h line 145): the specialization class the kernels were
scheduled for, plus launch parameters. -/
structure FusionHeuristics where
  spec_class_ : SpecClass
  launch_params_ : List Nat
  deriving Repr, DecidableEq

/-- Profiling log (kernel_cache.h lines 26-31), with the parameter objects
modelled as numeric tags and the `FusionExecutor*` pointer as an optional
executor index (nullptr = `none`). -/
structure ExecutorLog where
  reduction_params : Option Nat := none
  pointwise_params : Option Nat := none
  launch_constraints : Option (List Nat) := none
  fusion_executor : Option Nat := none
  deriving Repr, DecidableEq

/-- Modelled from the spec: the `FusionExecutor` class is declared in
executor.h, which is not among the sampled sources.  Spec section 4.3: a
compiled kernel holding internal per-input-identity state (cached launch
configurations), keyed by the identities of section 4.1. -/
structure FusionExecutor where
  cached_ids : List Nat
  deriving Repr, DecidableEq

/-- Modelled from the spec: `FusionExecutor::evictCache` (called from
`FusionKernelRuntime::evictCache`, kernel_cache.h line 56) removes one
identity's entry from the executor's per-identity cache. -/
def FusionExecutor.evictCache (fe : FusionExecutor) (input_id : Nat) :
    FusionExecutor :=
  { cached_ids := fe.cached_ids.filter (fun i => decide (i ≠ input_id)) }

/-- `FusionKernelRuntime` state (kernel_cache.h lines 42-167): executors
indexed by group id, the heuristics bundle, the segmented/single-kernel
mode flag, the segment group ids of the segmented fusion, the profiling
flag and the single-slot most-recent executor log. -/
structure FusionKernelRuntime where
  executors_ : List FusionExecutor
  heuristics_ : FusionHeuristics
  is_segmented_ : Bool
  segments_ : List Nat
  profiling_ : Bool
  most_recent_executor_log_ : ExecutorLog
  deriving Repr, DecidableEq

/-- `FusionKernelRuntime::evictCache` (kernel_cache.h lines 54-58), embedded
from the source: forwards the eviction to every owned executor. -/
def FusionKernelRuntime.evictCache (rt : FusionKernelRuntime)
    (input_id : Nat) : FusionKernelRuntime :=
  { rt with
      executors_ := rt.executors_.map (fun fe => fe.evictCache input_id) }

/-- `FusionKernelRuntime::profile` (kernel_cache.h lines 72-74), embedded
from the source. -/
def FusionKernelRuntime.profile (rt : FusionKernelRuntime)
    (to_profile : Bool) : FusionKernelRuntime :=
  { rt with profiling_ := to_profile }

/-- `FusionKernelRuntime::getMostRecentExecutorLog` (kernel_cache.h lines
102-106), embedded from the source: `TORCH_INTERNAL_ASSERT(profiling_, ...)`
halts unless profiling is enabled, modelled as `Except.error`; otherwise the
single-slot log is returned. -/
def FusionKernelRuntime.getMostRecentExecutorLog (rt : FusionKernelRuntime) :
    Except String ExecutorLog :=
  if rt.profiling_ then Except.ok rt.most_recent_executor_log_
  else Except.error profilingAssertMsg

/-- Modelled from the spec: the body of
`FusionKernelRuntime::getMaybeHeuristicsFor` is not among the sampled
sources (declaration and comment, kernel_cache.h lines 108-113).  Per that
comment and spec section 4.3 it returns `none` (c10::nullopt) if any
segment cannot be scheduled for the inputs or the derived parameters do not
match the stored heuristics' shape class, and otherwise heuristics with
launch parameters recomputed from the new extents; `sched` stands for the
external per-segment schedulability oracle (the heuristic deriver
collaborator of spec section 6). -/
def getMaybeHeuristicsFor (sched : Nat → InputConfig → Bool)
    (rt : FusionKernelRuntime) (c : InputConfig) : Option FusionHeuristics :=
  if rt.segments_.all (fun sg => sched sg c) = true ∧
      specClass c = rt.heuristics_.spec_class_ then
    some { spec_class_ := rt.heuristics_.spec_class_,
           launch_params_ := [totalElements c] }
  else none

/-- `FusionKernelRuntime::updateHeuristicsLaunchParams` (declared at
kernel_cache.h lines 115-117), modelled from the spec and the declaration's
comment: copies only the launch parameters of the given heuristics into the
runtime, preparing a kernel launch for a new input dimension under the same
heuristics. -/
def updateHeuristicsLaunchParams (rt : FusionKernelRuntime)
    (h : FusionHeuristics) : FusionKernelRuntime :=
  { rt with
      heuristics_ :=
        { rt.heuristics_ with launch_params_ := h.launch_params_ } }

/-- Modelled from the spec: the body of
`FusionExecutorCache::getKernelRuntimeFor` is not among the sampled sources
(declaration at kernel_cache.h lines 340-342).  Spec section 4.2: reuse the
first existing runtime whose cached heuristics are compatible with the new
configuration, updating only its launch parameters; if none is compatible,
construct a brand-new runtime (`build` stands for the external
heuristics-derivation-plus-compilation collaborator).  Returns the index of
the runtime chosen together with the updated runtime list; the index equals
the input list's length exactly when a new runtime was appended. -/
def getKernelRuntimeFor (sched : Nat → InputConfig → Bool)
    (build : InputConfig → FusionKernelRuntime) :
    List FusionKernelRuntime → InputConfig → Nat × List FusionKernelRuntime
  | [], c => (0, [build c])
  | rt :: rest, c =>
      match getMaybeHeuristicsFor sched rt c with
      | some h => (0, updateHeuristicsLaunchParams rt h :: rest)
      | none =>
          let r := getKernelRuntimeFor sched build rest c
          (r.1 + 1, rt :: r.2)

/-- `FusionExecutorCache` state (kernel_cache.h lines 295-368): the
inputs-to-identity lookup cache, the owned kernel runtimes (the per-device
vectors of `kernel_runtimes_` flattened into one list), the id-to-runtime
shortcut map `id_to_kernel_runtime_` (a runtime referenced by its index into
`kernel_runtimes_`), the profiling flag and the most-recent-runtime
introspection pointer. -/
structure FusionExecutorCache where
  inputs_id_lookup_ : InputsIdLookup
  kernel_runtimes_ : List FusionKernelRuntime
  id_to_kernel_runtime_ : List (Nat × Nat)
  profiling_ : Bool
  most_recent_runtime_ : Option FusionKernelRuntime
  deriving Repr, DecidableEq

/-- Modelled from the spec: the body of `FusionExecutorCache::evictCache` is
not among the sampled sources (declaration and comment, kernel_cache.h lines
336-338).  Per that comment and spec section 4.2 it removes the evicted
identity's shortcut entry from `id_to_kernel_runtime_` and forwards the
eviction to the live runtimes' executors through
`FusionKernelRuntime::evictCache`; per the lifecycle of spec section 3 there
is no plan-level eviction, so no runtime is removed from
`kernel_runtimes_`. -/
def FusionExecutorCache.evictCache (c : FusionExecutorCache)
    (cache_id : Nat) : FusionExecutorCache :=
  { c with
      id_to_kernel_runtime_ := eraseKey cache_id c.id_to_kernel_runtime_,
      kernel_runtimes_ :=
        c.kernel_runtimes_.map (fun rt => rt.evictCache cache_id) }

/-- `FusionExecutorCache::getMostRecentExecutorInfo` (kernel_cache.h lines
321-324), embedded from the source:
`TORCH_INTERNAL_ASSERT(most_recent_runtime_ != nullptr)` halts on the null
pointer, modelled as `Except.error`; otherwise it forwards to the runtime's
`getMostRecentExecutorLog`. -/
def FusionExecutorCache.getMostRecentExecutorInfo (c : FusionExecutorCache) :
    Except String ExecutorLog :=
  match c.most_recent_runtime_ with
  | none => Except.error nullRuntimeAssertMsg
  | some rt => rt.getMostRecentExecutorLog

/-- Runtime dispatch step of `runFusionWithInputs` (spec section 4.2): serve
the identity from the `id_to_kernel_runtime_` shortcut when present,
otherwise choose or build a runtime through `getKernelRuntimeFor` and
register the shortcut for this identity. -/
def dispatchRuntime (sched : Nat → InputConfig → Bool)
    (build : InputConfig → FusionKernelRuntime)
    (c2 : FusionExecutorCache) (id : Nat) (inp : InputConfig) :
    FusionExecutorCache :=
  match findKey id c2.id_to_kernel_runtime_ with
  | some _ => c2
  | none =>
      let g := getKernelRuntimeFor sched build c2.kernel_runtimes_ inp
      { c2 with
          kernel_runtimes_ := g.2,
          id_to_kernel_runtime_ := (id, g.1) :: c2.id_to_kernel_runtime_ }

/-- Modelled from the spec: the body of
`FusionExecutorCache::runFusionWithInputs` is not among the sampled sources
(declaration at kernel_cache.h lines 303-304).  Spec section 4.2, cache
management portion: look the inputs' encoding up in the identity cache; if
the lookup signals an eviction, drain it through `evictCache` before
anything else proceeds; then dispatch the identity through
`dispatchRuntime`.  Returns the lookup result together with the new cache
state (kernel execution itself is an external collaborator, out of scope
per spec section 1). -/
def FusionExecutorCache.runFusionWithInputs
    (sched : Nat → InputConfig → Bool)
    (build : InputConfig → FusionKernelRuntime)
    (encode : InputConfig → String)
    (c : FusionExecutorCache) (inp : InputConfig) :
    IdLookupReturn × FusionExecutorCache :=
  let rs := c.inputs_id_lookup_.lookupId (encode inp)
  let c1 : FusionExecutorCache := { c with inputs_id_lookup_ := rs.2 }
  let c2 := if rs.1.eviction then c1.evictCache rs.1.evict_id else c1
  (rs.1, dispatchRuntime sched build c2 rs.1.id inp)

/-- A concrete runtime used in witnesses: one executor holding a cached
entry for identity 1, single-kernel mode, one segment. -/
def sampleRuntime : FusionKernelRuntime :=
  { executors_ := [{ cached_ids := [1] }],
    heuristics_ := { spec_class_ := ⟨2, 7, [false, false], [0, 1]⟩,
                     launch_params_ := [20] },
    is_segmented_ := false,
    segments_ := [0],
    profiling_ := false,
    most_recent_executor_log_ := {} }

/-- A concrete executor-cache state used in witnesses: the capacity-1
identity cache of `sampleLookupState` (configuration `A` live under
identity 1), one runtime, and the shortcut entry 1 ↦ 0. -/
def sampleExecutorCache : FusionExecutorCache :=
  { inputs_id_lookup_ := sampleLookupState,
    kernel_runtimes_ := [sampleRuntime],
    id_to_kernel_runtime_ := [(1, 0)],
    profiling_ := false,
    most_recent_runtime_ := none }

/-- Concrete serialization used in witnesses: rank-0 configurations encode
to `A`, everything else to `B`. -/
def sampleEncode (c : InputConfig) : String :=
  if c.rank = 0 then encA else encB

/-- Concrete schedulability oracle used in witnesses. -/
def sampleSched : Nat → InputConfig → Bool := fun _ _ => true

/-- Concrete runtime builder used in witnesses. -/
def sampleBuild : InputConfig → FusionKernelRuntime := fun _ => sampleRuntime

/-- The rank-0 configuration (encodes to `A`). -/
def sampleConfigA : InputConfig := ⟨0, 0, [], [], []⟩

/-- A rank-1 configuration (encodes to `B`). -/
def sampleConfigB : InputConfig := ⟨1, 0, [], [], [4]⟩

/-- The sample runtime with profiling turned on
(`FusionKernelRuntime::profile`). -/
def sampleRuntimeProfiled : FusionKernelRuntime :=
  sampleRuntime.profile true

/-- The sample cache after a run was recorded with profiling enabled. -/
def sampleExecutorCacheProfiled : FusionExecutorCache :=
  { sampleExecutorCache with
      profiling_ := true,
      most_recent_runtime_ := some sampleRuntimeProfiled }

/-- Apply a dimension permutation to a list (the action of
`at::Tensor::permute` on shape vectors and index vectors): entry `i` of the
result is entry `p[i]` of the argument. -/
def applyPermL (p : List Nat) (l : List Nat) : List Nat :=
  p.map (fun i => l.getD i 0)

/-- The inverse of a dimension permutation. -/
def invPerm (p : List Nat) : List Nat :=
  (List.range p.length).map (fun j => List.indexOf j p)

/-- `p` is a permutation of the dimension indices `0, …, n-1`. -/
def IsPermOf (p : List Nat) (n : Nat) : Prop :=
  p.Perm (List.range n)

instance (p : List Nat) (n : Nat) : Decidable (IsPermOf p n) := by
  unfold IsPermOf
  infer_instance

/-- A tensor-like value, for the I/O permutation argument: per-dimension
extents plus contents as a function from index vectors to values. -/
structure Tensor where
  dims : List Nat
  at_ : List Nat → Int

/-- Permute the view of a tensor (`at::Tensor::permute`): dimension `i` of
the result is dimension `p[i]` of the argument, and entries are read back
through the inverse index permutation — a layout reinterpretation, no data
copy. -/
def permuteTensor (p : List Nat) (t : Tensor) : Tensor :=
  { dims := applyPermL p t.dims,
    at_ := fun idx => t.at_ (applyPermL (invPerm p) idx) }

/-- Semantic equality of tensors: same extents and the same entry at every
index vector of the right rank (the spec's "semantic equivalence, not
byte-identical memory layout"). -/
def semEq (a b : Tensor) : Prop :=
  a.dims = b.dims ∧
  ∀ idx : List Nat, idx.length = a.dims.length → a.at_ idx = b.at_ idx

/-- `GraphCache` state (kernel_cache.h lines 370-409): the eliminated
reduction axes, the permutation-support flag computed at construction, and
the three derived permutations (`at::DimVector` modelled as `List Nat`).
The owned `FusionExecutorCache` is represented by the executor function
handed to `runGraphWithInputs`. -/
structure GraphCache where
  reduction_axes_ : List Nat
  support_permutation_ : Bool
  input_permutation_ : List Nat
  pw_output_permutation_ : List Nat
  reduction_output_permutation_ : List Nat
  deriving Repr, DecidableEq

/-- `GraphCache::requiresPermutation` (declared at kernel_cache.h line 392),
modelled from the spec: the run-time check for taking the permutation
short-cut, true exactly when a common non-default stride order was found at
construction. -/
def GraphCache.requiresPermutation (gc : GraphCache) : Bool :=
  gc.support_permutation_

/-- The output permutation applying to one output: reduction outputs (axes
were eliminated) use `reduction_output_permutation_`, pointwise outputs use
`pw_output_permutation_`. -/
def permFor (gc : GraphCache) (o : Bool × Tensor) : List Nat :=
  if o.1 then gc.reduction_output_permutation_
  else gc.pw_output_permutation_

/-- Modelled from the spec: the body of `GraphCache::runGraphWithInputs` is
not among the sampled sources (declaration at kernel_cache.h lines
379-381).  Spec section 4.4: when a common permutation exists, permute every
input view by `input_permutation_`, run the `FusionExecutorCache` (`fec`,
the external execution, producing outputs tagged reduction or pointwise),
and apply the corresponding output permutation to each output before
returning; when no common permutation exists, inputs and outputs pass
through unpermuted. -/
def runGraphWithInputs (gc : GraphCache)
    (fec : List Tensor → List (Bool × Tensor)) (inputs : List Tensor) :
    List Tensor :=
  if gc.requiresPermutation then
    (fec (inputs.map (permuteTensor gc.input_permutation_))).map
      (fun o => permuteTensor (permFor gc o) o.2)
  else
    (fec inputs).map Prod.snd

/-- A graph cache with a common stride-order permutation swapping the two
dimensions of rank-2 tensors. -/
def sampleGraphCache : GraphCache :=
  { reduction_axes_ := [],
    support_permutation_ := true,
    input_permutation_ := [1, 0],
    pw_output_permutation_ := [1, 0],
    reduction_output_permutation_ := [] }

/-- A 2 × 3 tensor with distinguishable entries. -/
def sampleTensor : Tensor :=
  { dims := [2, 3],
    at_ := fun idx => (idx.getD 0 0 : Int) * 10 + (idx.getD 1 0 : Int) }

/-- Direct (unpermuted) semantics of the witness graph: one pointwise
output. -/
def sampleDirect : List Tensor → List (Bool × Tensor) :=
  fun _ => [(false, sampleTensor)]

/-- The compiled path of the witness graph: it produces the output in the
permuted layout. -/
def sampleFec : List Tensor → List (Bool × Tensor) :=
  fun _ => [(false, permuteTensor (invPerm [1, 0]) sampleTensor)]

example :
    (lookupMany (freshInputsIdLookup 2) [encA, encB, encC, encA]).2 =
      [{ id := 1 }, { id := 2 },
       { id := 3, evict_id := 1, eviction := true },
       { id := 4, evict_id := 2, eviction := true }] := by
  decide

theorem findKey_eq_none {α β : Type} [DecidableEq α] {k : α}
    {m : List (α × β)} (h : k ∉ m.map Prod.fst) : findKey k m = none := by
  induction m with
  | nil => rfl
  | cons p rest ih =>
      simp only [List.map_cons, List.mem_cons, not_or] at h
      have hne : ¬ p.1 = k := fun hpk => h.1 hpk.symm
      simp only [findKey, if_neg hne]
      exact ih h.2

theorem mem_keys_of_findKey_some {α β : Type} [DecidableEq α] {k : α}
    {m : List (α × β)} {v : β} (h : findKey k m = some v) :
    k ∈ m.map Prod.fst := by
  induction m with
  | nil => simp [findKey] at h
  | cons p rest ih =>
      by_cases hk : p.1 = k
      · simp [hk]
      · simp only [findKey, if_neg hk] at h
        simp [ih h]

theorem mem_of_findKey_some {α β : Type} [DecidableEq α] {k : α}
    {m : List (α × β)} {v : β} (h : findKey k m = some v) : (k, v) ∈ m := by
  induction m with
  | nil => simp [findKey] at h
  | cons p rest ih =>
      obtain ⟨a, b⟩ := p
      by_cases hk : a = k
      · subst hk
        simp only [findKey, eq_self_iff_true, if_true, Option.some.injEq] at h
        subst h
        exact List.mem_cons_self _ _
      · simp only [findKey, if_neg hk] at h
        exact List.mem_cons_of_mem _ (ih h)

theorem findKey_append_of_none {α β : Type} [DecidableEq α] {k : α}
    {m₁ m₂ : List (α × β)} (h : findKey k m₁ = none) :
    findKey k (m₁ ++ m₂) = findKey k m₂ := by
  induction m₁ with
  | nil => rfl
  | cons p rest ih =>
      simp only [findKey] at h ⊢
      by_cases hk : p.1 = k
      · simp [if_pos hk] at h
      · simp only [if_neg hk] at h ⊢
        exact ih h

theorem findKey_eraseKey_self {α β : Type} [DecidableEq α] (k : α)
    (m : List (α × β)) : findKey k (eraseKey k m) = none := by
  apply findKey_eq_none
  intro hmem
  simp only [eraseKey, List.mem_map] at hmem
  obtain ⟨p, hp, hpk⟩ := hmem
  rw [List.mem_filter] at hp
  exact (of_decide_eq_true hp.2) hpk

theorem eraseKey_sublist {α β : Type} [DecidableEq α] (k : α)
    (m : List (α × β)) : (eraseKey k m).Sublist m :=
  List.filter_sublist m

theorem map_fst_eraseKey {α β : Type} [DecidableEq α] (k : α)
    (m : List (α × β)) :
    (eraseKey k m).map Prod.fst =
      (m.map Prod.fst).filter (fun x => decide (x ≠ k)) := by
  induction m with
  | nil => rfl
  | cons p rest ih =>
      by_cases hk : p.1 = k
      · simp [eraseKey, List.filter, hk] at ih ⊢
        exact ih
      · simp [eraseKey, List.filter, hk] at ih ⊢
        exact ih

theorem map_snd_eraseKey_sublist {α β : Type} [DecidableEq α] (k : α)
    (m : List (α × β)) :
    ((eraseKey k m).map Prod.snd).Sublist (m.map Prod.snd) :=
  (eraseKey_sublist k m).map Prod.snd

theorem not_mem_keys_of_findKey_none {α β : Type} [DecidableEq α] {k : α}
    {m : List (α × β)} (h : findKey k m = none) : k ∉ m.map Prod.fst := by
  induction m with
  | nil => simp
  | cons p rest ih =>
      simp only [findKey] at h
      by_cases hk : p.1 = k
      · rw [if_pos hk] at h
        exact Option.noConfusion h
      · rw [if_neg hk] at h
        simp only [List.map_cons, List.mem_cons]
        push_neg
        exact ⟨fun he => hk he.symm, ih h⟩

theorem snd_injective_of_nodup {α β : Type} {m : List (α × β)}
    (hnd : (m.map Prod.snd).Nodup) {k : α} {w : β} (hkw : (k, w) ∈ m) :
    ∀ q ∈ m, q.2 = w → q = (k, w) := by
  induction m with
  | nil => simp at hkw
  | cons p rest ih =>
      simp only [List.map_cons, List.nodup_cons] at hnd
      intro q hq hq2
      rcases List.mem_cons.mp hkw with hp | hrest
      · rcases List.mem_cons.mp hq with rfl | hqrest
        · exact hp.symm
        · exfalso
          apply hnd.1
          rw [hp.symm]
          exact List.mem_map.mpr ⟨q, hqrest, hq2⟩
      · rcases List.mem_cons.mp hq with rfl | hqrest
        · exfalso
          apply hnd.1
          rw [hq2]
          exact List.mem_map.mpr ⟨(k, w), hrest, rfl⟩
        · exact ih hnd.2 hrest q hqrest hq2

theorem dropLast_eq_erase_getLast {α : Type} [DecidableEq α] {l : List α}
    (hnd : l.Nodup) (hne : l ≠ []) :
    l.dropLast = l.erase (l.getLast hne) := by
  induction l with
  | nil => exact absurd rfl hne
  | cons a t ih =>
      cases t with
      | nil => simp
      | cons b u =>
          have ht : (b :: u) ≠ [] := List.cons_ne_nil _ _
          have hgl : (a :: b :: u).getLast hne = (b :: u).getLast ht :=
            List.getLast_cons ht
          have hmem : (b :: u).getLast ht ∈ b :: u := List.getLast_mem ht
          have hna : a ∉ b :: u := (List.nodup_cons.mp hnd).1
          have hane : a ≠ (b :: u).getLast ht := fun he => hna (he ▸ hmem)
          rw [hgl, List.dropLast_cons₂, List.erase_cons_tail,
            ih (List.nodup_cons.mp hnd).2 ht]
          simp [hane]

/-- Case characterization of `lookupId`: cache hit. -/
theorem lookupId_hit {s : InputsIdLookup} {enc : String} {i : Nat}
    (h : findKey enc s.encoding_lookup_ = some i) :
    s.lookupId enc =
      ({ id := i },
       { s with used_entry_ := enc :: s.used_entry_.erase enc }) := by
  simp [InputsIdLookup.lookupId, h]

/-- Case characterization of `lookupId`: cache miss without eviction. -/
theorem lookupId_miss_insert {s : InputsIdLookup} {enc : String}
    (h : findKey enc s.encoding_lookup_ = none)
    (hcap : ¬ s.max_cache_size_ < s.used_entry_.length + 1) :
    s.lookupId enc =
      ({ id := s.current_id_ },
       { s with
           current_id_ := s.current_id_ + 1,
           used_entry_ := enc :: s.used_entry_,
           encoding_lookup_ := (enc, s.current_id_) :: s.encoding_lookup_ }) := by
  simp [InputsIdLookup.lookupId, h, hcap]

/-- Case characterization of `lookupId`: cache miss with LRU eviction. -/
theorem lookupId_miss_evict {s : InputsIdLookup} {enc : String}
    (h : findKey enc s.encoding_lookup_ = none)
    (hcap : s.max_cache_size_ < s.used_entry_.length + 1) :
    s.lookupId enc =
      ({ id := s.current_id_,
         evict_id :=
           (findKey ((enc :: s.used_entry_).getLast (List.cons_ne_nil _ _))
             ((enc, s.current_id_) :: s.encoding_lookup_)).getD 0,
         eviction := true },
       { s with
           current_id_ := s.current_id_ + 1,
           used_entry_ := (enc :: s.used_entry_).dropLast,
           encoding_lookup_ :=
             eraseKey ((enc :: s.used_entry_).getLast (List.cons_ne_nil _ _))
               ((enc, s.current_id_) :: s.encoding_lookup_) }) := by
  simp [InputsIdLookup.lookupId, h, hcap]

/-- The identity counter never decreases across a lookup. -/
theorem lookupId_current_mono (s : InputsIdLookup) (enc : String) :
    s.current_id_ ≤ (s.lookupId enc).2.current_id_ := by
  rcases hfk : findKey enc s.encoding_lookup_ with _ | i
  · by_cases hcap : s.max_cache_size_ < s.used_entry_.length + 1
    · rw [lookupId_miss_evict hfk hcap]
      exact Nat.le_succ _
    · rw [lookupId_miss_insert hfk hcap]
      exact Nat.le_succ _
  · rw [lookupId_hit hfk]

/-- Identity discipline is preserved by every lookup. -/
theorem lookupId_wf {s : InputsIdLookup} (hwf : Wf s) (enc : String) :
    Wf (s.lookupId enc).2 := by
  obtain ⟨hpos, hbnd, hnd⟩ := hwf
  have hfresh : s.current_id_ ∉ s.encoding_lookup_.map Prod.snd := by
    intro hmem
    obtain ⟨p, hp, hp2⟩ := List.mem_map.mp hmem
    exact absurd (hp2 ▸ (hbnd p hp).2) (lt_irrefl _)
  have hconsWf : Wf { s with
      current_id_ := s.current_id_ + 1,
      used_entry_ := enc :: s.used_entry_,
      encoding_lookup_ := (enc, s.current_id_) :: s.encoding_lookup_ } := by
    refine ⟨Nat.le_succ_of_le hpos, ?_, ?_⟩
    · intro p hp
      rcases List.mem_cons.mp hp with rfl | hp'
      · exact ⟨hpos, Nat.lt_succ_self _⟩
      · exact ⟨(hbnd p hp').1, Nat.lt_succ_of_lt (hbnd p hp').2⟩
    · exact List.nodup_cons.mpr ⟨hfresh, hnd⟩
  rcases hfk : findKey enc s.encoding_lookup_ with _ | i
  · by_cases hcap : s.max_cache_size_ < s.used_entry_.length + 1
    · rw [lookupId_miss_evict hfk hcap]
      obtain ⟨hpos', hbnd', hnd'⟩ := hconsWf
      refine ⟨hpos', ?_, ?_⟩
      · intro p hp
        exact hbnd' p ((eraseKey_sublist _ _).subset hp)
      · exact (map_snd_eraseKey_sublist _ _).nodup hnd'
    · rw [lookupId_miss_insert hfk hcap]
      exact hconsWf
  · rw [lookupId_hit hfk]
    exact ⟨hpos, hbnd, hnd⟩

/-- Every issued identity is positive (0 is never issued). -/
theorem lookupId_id_pos {s : InputsIdLookup} (hwf : Wf s) (enc : String) :
    1 ≤ (s.lookupId enc).1.id := by
  rcases hfk : findKey enc s.encoding_lookup_ with _ | i
  · by_cases hcap : s.max_cache_size_ < s.used_entry_.length + 1
    · rw [lookupId_miss_evict hfk hcap]
      exact hwf.1
    · rw [lookupId_miss_insert hfk hcap]
      exact hwf.1
  · rw [lookupId_hit hfk]
    exact (hwf.2.1 _ (mem_of_findKey_some hfk)).1

/-- Every issued identity is below the post-lookup counter value. -/
theorem lookupId_id_lt {s : InputsIdLookup} (hwf : Wf s) (enc : String) :
    (s.lookupId enc).1.id < (s.lookupId enc).2.current_id_ := by
  rcases hfk : findKey enc s.encoding_lookup_ with _ | i
  · by_cases hcap : s.max_cache_size_ < s.used_entry_.length + 1
    · rw [lookupId_miss_evict hfk hcap]
      exact Nat.lt_succ_self _
    · rw [lookupId_miss_insert hfk hcap]
      exact Nat.lt_succ_self _
  · rw [lookupId_hit hfk]
    exact (hwf.2.1 _ (mem_of_findKey_some hfk)).2

/-- A miss consumes the current counter value and post-increments it. -/
theorem lookupId_miss_id {s : InputsIdLookup} (enc : String)
    (h : findKey enc s.encoding_lookup_ = none) :
    (s.lookupId enc).1.id = s.current_id_ ∧
      (s.lookupId enc).2.current_id_ = s.current_id_ + 1 := by
  by_cases hcap : s.max_cache_size_ < s.used_entry_.length + 1
  · rw [lookupId_miss_evict h hcap]
    exact ⟨rfl, rfl⟩
  · rw [lookupId_miss_insert h hcap]
    exact ⟨rfl, rfl⟩

/-- After an eviction, the evicted identity is absent from the map and below
the counter. -/
theorem lookupId_evict_retired {s : InputsIdLookup} (hwf : Wf s) (enc : String)
    (hev : (s.lookupId enc).1.eviction = true) :
    (s.lookupId enc).1.evict_id ∉
        ((s.lookupId enc).2.encoding_lookup_.map Prod.snd) ∧
      (s.lookupId enc).1.evict_id < (s.lookupId enc).2.current_id_ := by
  obtain ⟨hpos, hbnd, hnd⟩ := hwf
  rcases hfk : findKey enc s.encoding_lookup_ with _ | i
  · by_cases hcap : s.max_cache_size_ < s.used_entry_.length + 1
    · rw [lookupId_miss_evict hfk hcap] at hev ⊢
      set v := (enc :: s.used_entry_).getLast (List.cons_ne_nil _ _) with hv
      set mp := (enc, s.current_id_) :: s.encoding_lookup_ with hmp
      have hfresh : s.current_id_ ∉ s.encoding_lookup_.map Prod.snd := by
        intro hmem
        obtain ⟨p, hp, hp2⟩ := List.mem_map.mp hmem
        exact absurd (hp2 ▸ (hbnd p hp).2) (lt_irrefl _)
      have hndmp : (mp.map Prod.snd).Nodup := by
        rw [hmp, List.map_cons]
        exact List.nodup_cons.mpr ⟨hfresh, hnd⟩
      rcases hvk : findKey v mp with _ | w
      · constructor
        · simp only [hvk, Option.getD_none]
          intro hmem
          obtain ⟨p, hp, hp2⟩ := List.mem_map.mp hmem
          have hp' : p ∈ mp := (eraseKey_sublist _ _).subset hp
          rcases List.mem_cons.mp hp' with rfl | hpo
          · have : s.current_id_ = 0 := hp2
            omega
          · have h1 := (hbnd p hpo).1
            omega
        · simp [hvk]
      · constructor
        · simp only [hvk, Option.getD_some]
          intro hmem
          obtain ⟨q, hq, hq2⟩ := List.mem_map.mp hmem
          have hq' : q ∈ mp := (eraseKey_sublist _ _).subset hq
          have hqvw : q = (v, w) :=
            snd_injective_of_nodup hndmp (mem_of_findKey_some hvk) q hq' hq2
          subst hqvw
          have hq4 : (v, w) ∈ mp.filter (fun p => decide (p.1 ≠ v)) := hq
          exact (of_decide_eq_true (List.mem_filter.mp hq4).2) rfl
        · simp only [hvk, Option.getD_some]
          have hw : (v, w) ∈ mp := mem_of_findKey_some hvk
          rcases List.mem_cons.mp hw with he | ho
          · have : w = s.current_id_ := congrArg Prod.snd he
            omega
          · have := (hbnd _ ho).2
            omega
    · rw [lookupId_miss_insert hfk hcap] at hev
      exact Bool.noConfusion hev
  · rw [lookupId_hit hfk] at hev
    exact Bool.noConfusion hev

theorem erase_eq_filter_ne {l : List String} (hnd : l.Nodup) (a : String) :
    l.erase a = l.filter (fun x => decide (x ≠ a)) := by
  induction l with
  | nil => rfl
  | cons b t ih =>
      rw [List.nodup_cons] at hnd
      by_cases hb : b = a
      · subst hb
        rw [List.erase_cons_head, List.filter_cons_of_neg (by simp)]
        refine (List.filter_eq_self.mpr ?_).symm
        intro x hx
        simp only [decide_eq_true_eq]
        exact fun he => hnd.1 (he ▸ hx)
      · rw [List.erase_cons_tail (by simpa using hb),
          List.filter_cons_of_pos (by simp only [decide_eq_true_eq]; exact hb),
          ih hnd.2]

/-- The fresh cache satisfies the ledger invariant. -/
theorem consistent_fresh (cap : Nat) : Consistent (freshInputsIdLookup cap) :=
  ⟨List.nodup_nil, List.Perm.refl _, by simp [freshInputsIdLookup]⟩

/-- The fresh cache satisfies the identity discipline. -/
theorem wf_fresh (cap : Nat) : Wf (freshInputsIdLookup cap) :=
  ⟨le_refl 1, by simp [freshInputsIdLookup], by simp [freshInputsIdLookup]⟩

/-- The LRU ledger invariant (list within capacity, map and list mutually
consistent) is preserved by every `lookupId` call. -/
theorem lookupId_consistent {s : InputsIdLookup} (hcons : Consistent s)
    (enc : String) : Consistent (s.lookupId enc).2 := by
  obtain ⟨cap, cur, used, map⟩ := s
  obtain ⟨hnd, hperm, hlen⟩ := hcons
  rcases hfk : findKey enc map with _ | i
  · have hencnot : enc ∉ used := fun hmem =>
      not_mem_keys_of_findKey_none hfk (hperm.mem_iff.mpr hmem)
    by_cases hcap : cap < used.length + 1
    · cases used with
      | nil =>
          have hmap : map = [] := List.map_eq_nil_iff.mp hperm.eq_nil
          subst hmap
          rw [lookupId_miss_evict hfk (by simpa using hcap)]
          refine ⟨?_, ?_, ?_⟩ <;>
            simp [eraseKey, List.filter, List.dropLast]
      | cons u ut =>
          rw [lookupId_miss_evict hfk (by simpa using hcap)]
          have hune : (u :: ut) ≠ [] := List.cons_ne_nil _ _
          have hglc : (enc :: u :: ut).getLast (List.cons_ne_nil _ _) =
              (u :: ut).getLast hune := List.getLast_cons hune
          have hvmem : (u :: ut).getLast hune ∈ u :: ut := List.getLast_mem hune
          have hence : enc ≠ (u :: ut).getLast hune := fun he => hencnot (by
            rw [he]; exact hvmem)
          have hdrop : (enc :: u :: ut).dropLast =
              enc :: (u :: ut).erase ((u :: ut).getLast hune) := by
            rw [List.dropLast_cons₂, dropLast_eq_erase_getLast hnd hune]
          have herase : eraseKey ((u :: ut).getLast hune)
              ((enc, cur) :: map) =
              (enc, cur) :: eraseKey ((u :: ut).getLast hune) map := by
            rw [eraseKey, List.filter_cons_of_pos
              (by simp only [decide_eq_true_eq]; exact hence)]
            rfl
          refine ⟨?_, ?_, ?_⟩
          · rw [hglc, hdrop]
            refine List.nodup_cons.mpr ⟨?_, hnd.erase _⟩
            exact fun hmem =>
              hencnot ((List.erase_sublist _ _).subset hmem)
          · rw [hglc, hdrop, herase, List.map_cons]
            refine List.Perm.cons enc ?_
            rw [map_fst_eraseKey, erase_eq_filter_ne hnd]
            exact hperm.filter _
          · rw [hglc, hdrop]
            have hv1 : ((u :: ut).erase ((u :: ut).getLast hune)).length =
                (u :: ut).length - 1 := List.length_erase_of_mem hvmem
            simp only [List.length_cons, hv1]
            simp only [List.length_cons] at hlen
            omega
    · rw [lookupId_miss_insert hfk hcap]
      refine ⟨List.nodup_cons.mpr ⟨hencnot, hnd⟩, ?_, ?_⟩
      · rw [List.map_cons]
        exact hperm.cons enc
      · have h1 : used.length + 1 ≤ cap := Nat.not_lt.mp hcap
        simpa using h1
  · rw [lookupId_hit hfk]
    have hemem : enc ∈ used := hperm.mem_iff.mp (mem_keys_of_findKey_some hfk)
    refine ⟨?_, ?_, ?_⟩
    · exact List.nodup_cons.mpr
        ⟨fun hmem => ((List.Nodup.mem_erase_iff hnd).mp hmem).1 rfl,
         hnd.erase enc⟩
    · exact hperm.trans (List.perm_cons_erase hemem)
    · show (enc :: used.erase enc).length ≤ cap
      have h2 := List.length_erase_of_mem hemem
      have h3 : used.length ≤ cap := hlen
      have h4 : 1 ≤ used.length := List.length_pos.mpr (by
        intro he; rw [he] at hemem; exact List.not_mem_nil _ hemem)
      simp only [List.length_cons, h2]
      omega

/-- After any lookup, the encoding just presented is present in the map,
bound to the identity the call returned. -/
theorem lookupId_self_mem {s : InputsIdLookup} (hcons : Consistent s)
    (hcap : 1 ≤ s.max_cache_size_) (enc : String) :
    findKey enc (s.lookupId enc).2.encoding_lookup_ =
      some (s.lookupId enc).1.id := by
  obtain ⟨cap, cur, used, map⟩ := s
  obtain ⟨hnd, hperm, hlen⟩ := hcons
  have hcap' : 1 ≤ cap := hcap
  rcases hfk : findKey enc map with _ | i
  · have hencnot : enc ∉ used := fun hmem =>
      not_mem_keys_of_findKey_none hfk (hperm.mem_iff.mpr hmem)
    by_cases hc2 : cap < used.length + 1
    · cases used with
      | nil =>
          exfalso
          simp only [List.length_nil] at hc2
          omega
      | cons u ut =>
          rw [lookupId_miss_evict hfk (by simpa using hc2)]
          have hune : (u :: ut) ≠ [] := List.cons_ne_nil _ _
          have hglc : (enc :: u :: ut).getLast (List.cons_ne_nil _ _) =
              (u :: ut).getLast hune := List.getLast_cons hune
          have hvmem : (u :: ut).getLast hune ∈ u :: ut := List.getLast_mem hune
          have hence : enc ≠ (u :: ut).getLast hune := fun he => hencnot (by
            rw [he]; exact hvmem)
          rw [hglc, eraseKey, List.filter_cons_of_pos
            (by simp only [decide_eq_true_eq]; exact hence)]
          simp [findKey]
    · rw [lookupId_miss_insert hfk hc2]
      simp [findKey]
  · rw [lookupId_hit hfk]
    simpa using hfk

/-- Looking up the same encoding twice in a row returns the same identity
and the second call never evicts. -/
theorem lookupId_stable_aux {s : InputsIdLookup} (hcons : Consistent s)
    (hcap : 1 ≤ s.max_cache_size_) (enc : String) :
    ((s.lookupId enc).2.lookupId enc).1.id = (s.lookupId enc).1.id ∧
      ((s.lookupId enc).2.lookupId enc).1.eviction = false := by
  rw [lookupId_hit (lookupId_self_mem hcons hcap enc)]
  exact ⟨rfl, rfl⟩

/-- From a reachable state, the identity evicted by a lookup is never the
identity returned by that same lookup. -/
theorem lookupId_evict_ne_id {s : InputsIdLookup} (hwf : Wf s)
    (hcons : Consistent s) (hcap : 1 ≤ s.max_cache_size_) (enc : String)
    (hev : (s.lookupId enc).1.eviction = true) :
    (s.lookupId enc).1.evict_id ≠ (s.lookupId enc).1.id := by
  obtain ⟨cap, cur, used, map⟩ := s
  obtain ⟨hnd, hperm, hlen⟩ := hcons
  obtain ⟨hpos, hbnd, hndmap⟩ := hwf
  have hcap' : 1 ≤ cap := hcap
  have hpos' : 1 ≤ cur := hpos
  rcases hfk : findKey enc map with _ | i
  · have hencnot : enc ∉ used := fun hmem =>
      not_mem_keys_of_findKey_none hfk (hperm.mem_iff.mpr hmem)
    by_cases hc2 : cap < used.length + 1
    · cases used with
      | nil =>
          exfalso
          simp only [List.length_nil] at hc2
          omega
      | cons u ut =>
          rw [lookupId_miss_evict hfk (by simpa using hc2)]
          have hune : (u :: ut) ≠ [] := List.cons_ne_nil _ _
          have hglc : (enc :: u :: ut).getLast (List.cons_ne_nil _ _) =
              (u :: ut).getLast hune := List.getLast_cons hune
          have hvmem : (u :: ut).getLast hune ∈ u :: ut := List.getLast_mem hune
          have hence : enc ≠ (u :: ut).getLast hune := fun he => hencnot (by
            rw [he]; exact hvmem)
          rw [hglc]
          have hstep : findKey ((u :: ut).getLast hune) ((enc, cur) :: map) =
              findKey ((u :: ut).getLast hune) map := by
            simp only [findKey]
            rw [if_neg (fun h => hence h)]
          rw [hstep]
          rcases hvk : findKey ((u :: ut).getLast hune) map with _ | w
          · simp only [Option.getD_none]
            intro h0
            exact absurd (h0 ▸ hpos') (by omega)
          · simp only [Option.getD_some]
            have hwlt : w < cur := (hbnd _ (mem_of_findKey_some hvk)).2
            omega
    · rw [lookupId_miss_insert hfk hc2] at hev
      exact Bool.noConfusion hev
  · rw [lookupId_hit hfk] at hev
    exact Bool.noConfusion hev

/-- A retired identity (absent from the map and below the counter) is never
returned by a lookup. -/
theorem lookupId_ne_retired {s : InputsIdLookup} {e : Nat}
    (hmem : e ∉ s.encoding_lookup_.map Prod.snd) (hlt : e < s.current_id_)
    (enc : String) : (s.lookupId enc).1.id ≠ e := by
  rcases hfk : findKey enc s.encoding_lookup_ with _ | i
  · have h1 := (lookupId_miss_id enc hfk).1
    omega
  · rw [lookupId_hit hfk]
    intro he
    exact hmem (List.mem_map.mpr ⟨(enc, i), mem_of_findKey_some hfk, he⟩)

/-- Retirement is permanent: a lookup neither re-introduces a retired
identity into the map nor lets the counter fall back to it. -/
theorem lookupId_retired_preserved {s : InputsIdLookup} {e : Nat}
    (hmem : e ∉ s.encoding_lookup_.map Prod.snd) (hlt : e < s.current_id_)
    (enc : String) :
    e ∉ (s.lookupId enc).2.encoding_lookup_.map Prod.snd ∧
      e < (s.lookupId enc).2.current_id_ := by
  rcases hfk : findKey enc s.encoding_lookup_ with _ | i
  · by_cases hcap : s.max_cache_size_ < s.used_entry_.length + 1
    · rw [lookupId_miss_evict hfk (by simpa using hcap)]
      constructor
      · intro hin
        obtain ⟨p, hp, hp2⟩ := List.mem_map.mp hin
        have hp' : p ∈ (enc, s.current_id_) :: s.encoding_lookup_ :=
          (eraseKey_sublist _ _).subset hp
        rcases List.mem_cons.mp hp' with rfl | hpo
        · have : s.current_id_ = e := hp2
          omega
        · exact hmem (List.mem_map.mpr ⟨p, hpo, hp2⟩)
      · exact Nat.lt_succ_of_lt hlt
    · rw [lookupId_miss_insert hfk hcap]
      constructor
      · intro hin
        rw [List.map_cons] at hin
        rcases List.mem_cons.mp hin with he | hin'
        · omega
        · exact hmem hin'
      · exact Nat.lt_succ_of_lt hlt
  · rw [lookupId_hit hfk]
    exact ⟨hmem, hlt⟩

/-- Over any continuation of the trace, a retired identity is never returned
again by any lookup. -/
theorem lookupMany_ne_retired {e : Nat} :
    ∀ (encs : List String) (s : InputsIdLookup), Wf s →
      e ∉ s.encoding_lookup_.map Prod.snd → e < s.current_id_ →
      ∀ r ∈ (lookupMany s encs).2, r.id ≠ e := by
  intro encs
  induction encs with
  | nil =>
      intro s _ _ _ r hr
      simp [lookupMany] at hr
  | cons c rest ih =>
      intro s hwf hmem hlt r hr
      simp only [lookupMany] at hr
      rcases List.mem_cons.mp hr with rfl | hr'
      · exact lookupId_ne_retired hmem hlt c
      · obtain ⟨hm2, hl2⟩ := lookupId_retired_preserved hmem hlt c
        exact ih (s.lookupId c).2 (lookupId_wf hwf c) hm2 hl2 r hr'

theorem idPairs_map_fst (encs : List String) (n : Nat) :
    (idPairs encs n).map Prod.fst = encs := by
  induction encs generalizing n with
  | nil => rfl
  | cons e rest ih => simp [idPairs, ih]

/-- Presenting a block of pairwise-distinct, previously-unseen encodings that
still fits in the remaining capacity inserts them in order: identities are
consumed consecutively from the counter, every new entry is pushed on the
front of the recency list, and no eviction occurs. -/
theorem lookupMany_fresh :
    ∀ (encs : List String) (s : InputsIdLookup), encs.Nodup →
      (∀ e ∈ encs, findKey e s.encoding_lookup_ = none) →
      s.used_entry_.length + encs.length ≤ s.max_cache_size_ →
      (lookupMany s encs).1 =
        { max_cache_size_ := s.max_cache_size_,
          current_id_ := s.current_id_ + encs.length,
          used_entry_ := encs.reverse ++ s.used_entry_,
          encoding_lookup_ :=
            (idPairs encs s.current_id_).reverse ++ s.encoding_lookup_ } ∧
      (lookupMany s encs).2.map (fun r => r.id) =
        List.range' s.current_id_ encs.length ∧
      ∀ r ∈ (lookupMany s encs).2, r.eviction = false := by
  intro encs
  induction encs with
  | nil =>
      intro s _ _ _
      obtain ⟨cap, cur, used, map⟩ := s
      refine ⟨by simp [lookupMany, idPairs], rfl, ?_⟩
      intro r hr
      simp [lookupMany] at hr
  | cons c rest ih =>
      intro s hnd hnone hlen
      rw [List.nodup_cons] at hnd
      have hfkc : findKey c s.encoding_lookup_ = none :=
        hnone c (List.mem_cons_self _ _)
      have hcap : ¬ s.max_cache_size_ < s.used_entry_.length + 1 := by
        simp only [List.length_cons] at hlen
        omega
      have hstep := lookupId_miss_insert hfkc hcap
      obtain ⟨ih1, ih2, ih3⟩ := ih
        { max_cache_size_ := s.max_cache_size_,
          current_id_ := s.current_id_ + 1,
          used_entry_ := c :: s.used_entry_,
          encoding_lookup_ := (c, s.current_id_) :: s.encoding_lookup_ }
        hnd.2
        (by
          intro e he
          show findKey e ((c, s.current_id_) :: s.encoding_lookup_) = none
          simp only [findKey]
          rw [if_neg (fun hce : c = e => hnd.1 (hce ▸ he))]
          exact hnone e (List.mem_cons_of_mem _ he))
        (by
          show (c :: s.used_entry_).length + rest.length ≤ s.max_cache_size_
          simp only [List.length_cons] at hlen ⊢
          omega)
      have key : lookupMany s (c :: rest) =
          ((lookupMany
              { max_cache_size_ := s.max_cache_size_,
                current_id_ := s.current_id_ + 1,
                used_entry_ := c :: s.used_entry_,
                encoding_lookup_ := (c, s.current_id_) :: s.encoding_lookup_ }
              rest).1,
           ({ id := s.current_id_ } : IdLookupReturn) ::
             (lookupMany
               { max_cache_size_ := s.max_cache_size_,
                 current_id_ := s.current_id_ + 1,
                 used_entry_ := c :: s.used_entry_,
                 encoding_lookup_ := (c, s.current_id_) :: s.encoding_lookup_ }
               rest).2) := by
        show ((lookupMany (s.lookupId c).2 rest).1,
            (s.lookupId c).1 :: (lookupMany (s.lookupId c).2 rest).2) = _
        rw [hstep]
      rw [key]
      refine ⟨?_, ?_, ?_⟩
      · rw [ih1, InputsIdLookup.mk.injEq]
        refine ⟨rfl, ?_, ?_, ?_⟩
        · show s.current_id_ + 1 + rest.length =
            s.current_id_ + (c :: rest).length
          simp only [List.length_cons]
          omega
        · show rest.reverse ++ (c :: s.used_entry_) =
            (c :: rest).reverse ++ s.used_entry_
          rw [List.reverse_cons, List.append_assoc]
          rfl
        · show (idPairs rest (s.current_id_ + 1)).reverse ++
              ((c, s.current_id_) :: s.encoding_lookup_) =
            (idPairs (c :: rest) s.current_id_).reverse ++ s.encoding_lookup_
          rw [idPairs, List.reverse_cons, List.append_assoc]
          rfl
      · simp only [List.map_cons]
        rw [ih2]
        show s.current_id_ :: List.range' (s.current_id_ + 1) rest.length =
          List.range' s.current_id_ (rest.length + 1)
        rw [List.range'_succ]
      · intro r hr
        rcases List.mem_cons.mp hr with rfl | hr'
        · rfl
        · exact ih3 r hr'

/-- C1: for an `InputsIdLookup` of capacity `N`, presenting `N + 1`
pairwise-distinct configurations once each assigns the identities
`1, …, N` to the first `N` (so the least-recently-touched configuration
holds identity 1), and the `(N+1)`-th call returns `eviction = true` with
`evict_id = 1`, the identity of that least-recently-touched configuration;
concretely, with capacity 2 and configurations `A, B, C, A` the returned
identities are 1, 2, 3, 4, the third call evicts identity 1, and the final
lookup of `A` is a cache miss returning the fresh identity 4. -/
theorem c1_lru_eviction :
    (∀ (N : Nat) (encs : List String) (c : String), 1 ≤ N →
      encs.length = N → encs.Nodup → c ∉ encs →
      (lookupMany (freshInputsIdLookup N) encs).2.map (fun r => r.id) =
          List.range' 1 N ∧
        ((lookupMany (freshInputsIdLookup N) encs).1.lookupId c).1 =
          { id := N + 1, evict_id := 1, eviction := true }) ∧
    (lookupMany (freshInputsIdLookup 2) [encA, encB, encC, encA]).2 =
      [{ id := 1 }, { id := 2 },
       { id := 3, evict_id := 1, eviction := true },
       { id := 4, evict_id := 2, eviction := true }] := by
  constructor
  · intro N encs c hN hlen hnd hcnot
    obtain ⟨h1, h2, h3⟩ := lookupMany_fresh encs (freshInputsIdLookup N) hnd
      (fun e _ => rfl) (by simp [freshInputsIdLookup, hlen])
    constructor
    · exact h2.trans (by rw [hlen]; rfl)
    · rw [h1]
      cases encs with
      | nil =>
          exfalso
          rw [List.length_nil] at hlen
          omega
      | cons e0 etl =>
          rw [List.nodup_cons] at hnd
          simp only [List.mem_cons, not_or] at hcnot
          have hfk : findKey c
              ((idPairs (e0 :: etl) (freshInputsIdLookup N).current_id_).reverse ++
                (freshInputsIdLookup N).encoding_lookup_) = none := by
            apply findKey_eq_none
            intro hmem
            rw [List.map_append, List.map_reverse, idPairs_map_fst] at hmem
            rcases List.mem_append.mp hmem with hrev | hnil
            · rcases List.mem_cons.mp (List.mem_reverse.mp hrev) with h0 | h0
              · exact hcnot.1 h0
              · exact hcnot.2 h0
            · simp [freshInputsIdLookup] at hnil
          have hcap :
              ({ max_cache_size_ := (freshInputsIdLookup N).max_cache_size_,
                 current_id_ := (freshInputsIdLookup N).current_id_ + (e0 :: etl).length,
                 used_entry_ := (e0 :: etl).reverse ++ (freshInputsIdLookup N).used_entry_,
                 encoding_lookup_ :=
                   (idPairs (e0 :: etl) (freshInputsIdLookup N).current_id_).reverse ++
                     (freshInputsIdLookup N).encoding_lookup_ } :
                InputsIdLookup).max_cache_size_ <
              ((e0 :: etl).reverse ++ (freshInputsIdLookup N).used_entry_).length + 1 := by
            show N < ((e0 :: etl).reverse ++ []).length + 1
            rw [List.append_nil, List.length_reverse, hlen]
            omega
          rw [lookupId_miss_evict hfk hcap]
          have heqlist : (c :: ((e0 :: etl).reverse ++ (freshInputsIdLookup N).used_entry_)) =
              (c :: etl.reverse) ++ [e0] := by
            show c :: ((e0 :: etl).reverse ++ []) = _
            rw [List.append_nil, List.reverse_cons]
            rfl
          have hV : (c :: ((e0 :: etl).reverse ++ (freshInputsIdLookup N).used_entry_)).getLast
              (List.cons_ne_nil _ _) = e0 := by
            have hq2 : (c :: ((e0 :: etl).reverse ++ (freshInputsIdLookup N).used_entry_)).getLast? =
                some e0 := by
              rw [heqlist]
              exact List.getLast?_concat _
            have hsome := List.getLast?_eq_getLast
              (c :: ((e0 :: etl).reverse ++ (freshInputsIdLookup N).used_entry_))
              (List.cons_ne_nil _ _)
            rw [hq2] at hsome
            exact (Option.some.inj hsome).symm
          rw [hV]
          have hevict : findKey e0
              ((c, ({ max_cache_size_ := (freshInputsIdLookup N).max_cache_size_,
                      current_id_ := (freshInputsIdLookup N).current_id_ + (e0 :: etl).length,
                      used_entry_ := (e0 :: etl).reverse ++ (freshInputsIdLookup N).used_entry_,
                      encoding_lookup_ :=
                        (idPairs (e0 :: etl) (freshInputsIdLookup N).current_id_).reverse ++
                          (freshInputsIdLookup N).encoding_lookup_ } :
                     InputsIdLookup).current_id_) ::
                ((idPairs (e0 :: etl) (freshInputsIdLookup N).current_id_).reverse ++
                  (freshInputsIdLookup N).encoding_lookup_)) = some 1 := by
            simp only [findKey]
            rw [if_neg (fun hce : c = e0 => hcnot.1 hce)]
            show findKey e0 ((idPairs (e0 :: etl) 1).reverse ++ []) = some 1
            rw [List.append_nil, idPairs, List.reverse_cons]
            rw [findKey_append_of_none (findKey_eq_none (by
              rw [List.map_reverse, idPairs_map_fst]
              intro hmem
              exact hnd.1 (List.mem_reverse.mp hmem)))]
            simp [findKey]
          rw [hevict]
          show ({ id := 1 + (e0 :: etl).length, evict_id := (some 1).getD 0,
                  eviction := true } : IdLookupReturn) =
            { id := N + 1, evict_id := 1, eviction := true }
          rw [IdLookupReturn.mk.injEq]
          refine ⟨?_, rfl, rfl⟩
          rw [List.length_cons] at hlen ⊢
          omega
  · decide

/-- Witness for C1: capacity 2, fresh configurations X, Y, then Z evicts
identity 1 and returns the fresh identity 3. -/
theorem c1_lru_eviction_witness :
    (lookupMany (freshInputsIdLookup 2) [encX, encY]).2.map (fun r => r.id) =
        List.range' 1 2 ∧
      ((lookupMany (freshInputsIdLookup 2) [encX, encY]).1.lookupId encZ).1 =
        { id := 3, evict_id := 1, eviction := true } :=
  c1_lru_eviction.1 2 [encX, encY] encZ (by decide) rfl (by decide) (by decide)

/-- C3: identities come from a per-instance counter that starts at 1 and is
post-incremented on each new insertion: the fresh counter is 1, every issued
identity is positive (0 is never issued) and the counter never decreases, a
miss consumes exactly the current counter value and bumps it, identity
discipline is preserved, and an evicted identity is never returned again by
any subsequent lookup, for any continuation of the trace. -/
theorem c3_identity_no_reuse (cap : Nat) (s : InputsIdLookup) (enc : String)
    (hwf : Wf s) :
    (freshInputsIdLookup cap).current_id_ = 1 ∧
    Wf (s.lookupId enc).2 ∧
    1 ≤ (s.lookupId enc).1.id ∧
    s.current_id_ ≤ (s.lookupId enc).2.current_id_ ∧
    (findKey enc s.encoding_lookup_ = none →
      (s.lookupId enc).1.id = s.current_id_ ∧
        (s.lookupId enc).2.current_id_ = s.current_id_ + 1) ∧
    ((s.lookupId enc).1.eviction = true →
      ∀ (encs : List String) (r : IdLookupReturn),
        r ∈ (lookupMany (s.lookupId enc).2 encs).2 →
          r.id ≠ (s.lookupId enc).1.evict_id) := by
  refine ⟨rfl, lookupId_wf hwf enc, lookupId_id_pos hwf enc,
    lookupId_current_mono s enc, lookupId_miss_id enc, ?_⟩
  intro hev encs r hr
  obtain ⟨hm, hl⟩ := lookupId_evict_retired hwf enc hev
  exact lookupMany_ne_retired encs (s.lookupId enc).2 (lookupId_wf hwf enc)
    hm hl r hr

/-- Witness for C3: looking up `B` evicts `A`'s identity 1, and replaying
`A` then `C` never returns the evicted identity again. -/
theorem c3_identity_no_reuse_witness :
    Wf (sampleLookupState.lookupId encB).2 ∧
      ((lookupMany (sampleLookupState.lookupId encB).2 [encA, encC]).2.getD 0
          { id := 0 }).id ≠ (sampleLookupState.lookupId encB).1.evict_id :=
  ⟨(c3_identity_no_reuse 0 sampleLookupState encB (by decide)).2.1,
   (c3_identity_no_reuse 0 sampleLookupState encB (by decide)).2.2.2.2.2
     (by decide) [encA, encC]
     ((lookupMany (sampleLookupState.lookupId encB).2 [encA, encC]).2.getD 0
       { id := 0 })
     (by decide)⟩

/-- C5: looking up the same configuration twice in succession, with no
intervening distinct configuration, returns the same identity both times,
and the second call reports no eviction (a hit only moves the entry to the
most-recently-used position). -/
theorem c5_identity_stability (s : InputsIdLookup) (enc : String)
    (hcons : Consistent s) (hcap : 1 ≤ s.max_cache_size_) :
    ((s.lookupId enc).2.lookupId enc).1.id = (s.lookupId enc).1.id ∧
      ((s.lookupId enc).2.lookupId enc).1.eviction = false :=
  lookupId_stable_aux hcons hcap enc

/-- Witness for C5 on the fresh capacity-2 cache and configuration `A`. -/
theorem c5_identity_stability_witness :
    (((freshInputsIdLookup 2).lookupId encA).2.lookupId encA).1.id =
        ((freshInputsIdLookup 2).lookupId encA).1.id ∧
      (((freshInputsIdLookup 2).lookupId encA).2.lookupId encA).1.eviction =
        false :=
  c5_identity_stability (freshInputsIdLookup 2) encA (by decide) (by decide)

/-- C6: the recency list `used_entry_` never exceeds `max_cache_size_` and
is in one-to-one correspondence with the map `encoding_lookup_` (the list
has no duplicates and the map keys are a permutation of it); the invariant
holds for the freshly constructed cache and is preserved by every `lookupId`
call, hit, insert, and insert-with-eviction alike. -/
theorem c6_ledger_invariant (cap : Nat) (s : InputsIdLookup) (enc : String)
    (hcons : Consistent s) :
    Consistent (freshInputsIdLookup cap) ∧
    Consistent (s.lookupId enc).2 ∧
    (s.lookupId enc).2.used_entry_.length ≤
      (s.lookupId enc).2.max_cache_size_ :=
  ⟨consistent_fresh cap, lookupId_consistent hcons enc,
   (lookupId_consistent hcons enc).2.2⟩

/-- Witness for C6 on the fresh capacity-2 cache and configuration `A`. -/
theorem c6_ledger_invariant_witness :
    Consistent ((freshInputsIdLookup 2).lookupId encA).2 :=
  (c6_ledger_invariant 2 (freshInputsIdLookup 2) encA (by decide)).2.1

theorem getKernelRuntimeFor_length (sched : Nat → InputConfig → Bool)
    (build : InputConfig → FusionKernelRuntime) :
    ∀ (rts : List FusionKernelRuntime) (c : InputConfig),
      rts.length ≤ (getKernelRuntimeFor sched build rts c).2.length := by
  intro rts
  induction rts with
  | nil =>
      intro c
      simp [getKernelRuntimeFor]
  | cons rt rest ih =>
      intro c
      rcases hm : getMaybeHeuristicsFor sched rt c with _ | h
      · simp only [getKernelRuntimeFor, hm, List.length_cons]
        exact Nat.succ_le_succ (ih c)
      · simp [getKernelRuntimeFor, hm]

theorem dispatchRuntime_il (sched : Nat → InputConfig → Bool)
    (build : InputConfig → FusionKernelRuntime) (c2 : FusionExecutorCache)
    (id : Nat) (inp : InputConfig) :
    (dispatchRuntime sched build c2 id inp).inputs_id_lookup_ =
      c2.inputs_id_lookup_ := by
  rcases hm : findKey id c2.id_to_kernel_runtime_ with _ | idx
  · simp only [dispatchRuntime, hm]
  · simp only [dispatchRuntime, hm]

theorem dispatchRuntime_shortcut_none {e id : Nat}
    (sched : Nat → InputConfig → Bool)
    (build : InputConfig → FusionKernelRuntime) (c2 : FusionExecutorCache)
    (inp : InputConfig) (h1 : findKey e c2.id_to_kernel_runtime_ = none)
    (h2 : id ≠ e) :
    findKey e (dispatchRuntime sched build c2 id inp).id_to_kernel_runtime_ =
      none := by
  rcases hm : findKey id c2.id_to_kernel_runtime_ with _ | idx
  · simp only [dispatchRuntime, hm]
    show findKey e
      ((id, (getKernelRuntimeFor sched build c2.kernel_runtimes_ inp).1) ::
        c2.id_to_kernel_runtime_) = none
    simp only [findKey]
    rw [if_neg (fun hh : id = e => h2 hh)]
    exact h1
  · simp only [dispatchRuntime, hm]
    exact h1

theorem dispatchRuntime_length (sched : Nat → InputConfig → Bool)
    (build : InputConfig → FusionKernelRuntime) (c2 : FusionExecutorCache)
    (id : Nat) (inp : InputConfig) :
    c2.kernel_runtimes_.length ≤
      (dispatchRuntime sched build c2 id inp).kernel_runtimes_.length := by
  rcases hm : findKey id c2.id_to_kernel_runtime_ with _ | idx
  · simp only [dispatchRuntime, hm]
    exact getKernelRuntimeFor_length sched build _ inp
  · simp only [dispatchRuntime, hm]
    exact le_refl _

/-- C2: whenever a `runFusionWithInputs` call observes `eviction = true`
with evicted identity `e`, the eviction is drained before dispatch: `e` is
absent from the `id_to_kernel_runtime_` shortcut map of the resulting cache
state, and the very next call — in particular one presenting the
configuration that formerly held identity `e` — is assigned an identity
different from `e`, so it can never be served a cached plan under the stale
identity `e`. -/
theorem c2_eviction_propagation (sched : Nat → InputConfig → Bool)
    (build : InputConfig → FusionKernelRuntime)
    (encode : InputConfig → String) (c : FusionExecutorCache)
    (inp inp2 : InputConfig)
    (hwf : Wf c.inputs_id_lookup_) (hcons : Consistent c.inputs_id_lookup_)
    (hcap : 1 ≤ c.inputs_id_lookup_.max_cache_size_)
    (hev : (c.runFusionWithInputs sched build encode inp).1.eviction = true) :
    findKey (c.runFusionWithInputs sched build encode inp).1.evict_id
        (c.runFusionWithInputs sched build encode inp).2.id_to_kernel_runtime_ =
      none ∧
    ((c.runFusionWithInputs sched build encode inp).2.runFusionWithInputs
        sched build encode inp2).1.id ≠
      (c.runFusionWithInputs sched build encode inp).1.evict_id := by
  have hev' : (c.inputs_id_lookup_.lookupId (encode inp)).1.eviction = true :=
    hev
  have hneid := lookupId_evict_ne_id hwf hcons hcap (encode inp) hev'
  obtain ⟨hm2, hl2⟩ := lookupId_evict_retired hwf (encode inp) hev'
  have hrun2 : (c.runFusionWithInputs sched build encode inp).2 =
      dispatchRuntime sched build
        (if (c.inputs_id_lookup_.lookupId (encode inp)).1.eviction = true then
          FusionExecutorCache.evictCache
            { c with
                inputs_id_lookup_ :=
                  (c.inputs_id_lookup_.lookupId (encode inp)).2 }
            (c.inputs_id_lookup_.lookupId (encode inp)).1.evict_id
        else
          { c with
              inputs_id_lookup_ :=
                (c.inputs_id_lookup_.lookupId (encode inp)).2 })
        (c.inputs_id_lookup_.lookupId (encode inp)).1.id inp := rfl
  rw [if_pos hev'] at hrun2
  constructor
  · rw [hrun2]
    apply dispatchRuntime_shortcut_none
    · exact findKey_eraseKey_self _ _
    · exact Ne.symm hneid
  · have hil :
        (c.runFusionWithInputs sched build encode inp).2.inputs_id_lookup_ =
          (c.inputs_id_lookup_.lookupId (encode inp)).2 := by
      rw [hrun2, dispatchRuntime_il]
      rfl
    show (((c.runFusionWithInputs sched build encode
          inp).2).inputs_id_lookup_.lookupId (encode inp2)).1.id ≠
        (c.inputs_id_lookup_.lookupId (encode inp)).1.evict_id
    rw [hil]
    exact lookupId_ne_retired hm2 hl2 (encode inp2)

/-- Witness for C2: presenting `B` to the full sample cache evicts `A`'s
identity 1, the shortcut entry for 1 is gone, and re-presenting `A` yields a
fresh identity different from 1. -/
theorem c2_eviction_propagation_witness :
    findKey (sampleExecutorCache.runFusionWithInputs sampleSched sampleBuild
        sampleEncode sampleConfigB).1.evict_id
        (sampleExecutorCache.runFusionWithInputs sampleSched sampleBuild
          sampleEncode sampleConfigB).2.id_to_kernel_runtime_ = none ∧
      ((sampleExecutorCache.runFusionWithInputs sampleSched sampleBuild
          sampleEncode sampleConfigB).2.runFusionWithInputs sampleSched
          sampleBuild sampleEncode sampleConfigA).1.id ≠
        (sampleExecutorCache.runFusionWithInputs sampleSched sampleBuild
          sampleEncode sampleConfigB).1.evict_id :=
  c2_eviction_propagation sampleSched sampleBuild sampleEncode
    sampleExecutorCache sampleConfigB sampleConfigA (by decide) (by decide)
    (by decide) (by decide)

/-- C9: identity-cache eviction never destroys a runtime object.
`FusionExecutorCache::evictCache` keeps `kernel_runtimes_` at the same
length; per runtime it only clears per-identity executor state (segments,
heuristics and mode are untouched and the evicted identity disappears from
every executor's internal cache, via the source-embedded
`FusionKernelRuntime::evictCache`) and removes the evicted identity's
shortcut entry; and `runFusionWithInputs` never shrinks the runtime list
either — runtimes die only with the owning cache. -/
theorem c9_runtime_lifetime (c : FusionExecutorCache) (e : Nat)
    (rt : FusionKernelRuntime) (sched : Nat → InputConfig → Bool)
    (build : InputConfig → FusionKernelRuntime)
    (encode : InputConfig → String) (inp : InputConfig) :
    ((c.evictCache e).kernel_runtimes_).length =
        c.kernel_runtimes_.length ∧
    (rt.evictCache e).segments_ = rt.segments_ ∧
    (rt.evictCache e).heuristics_ = rt.heuristics_ ∧
    (rt.evictCache e).is_segmented_ = rt.is_segmented_ ∧
    (∀ fe ∈ (rt.evictCache e).executors_, e ∉ fe.cached_ids) ∧
    findKey e (c.evictCache e).id_to_kernel_runtime_ = none ∧
    c.kernel_runtimes_.length ≤
      ((c.runFusionWithInputs sched build encode
        inp).2.kernel_runtimes_).length := by
  refine ⟨by simp [FusionExecutorCache.evictCache], rfl, rfl, rfl, ?_, ?_, ?_⟩
  · intro fe hfe
    simp only [FusionKernelRuntime.evictCache, List.mem_map] at hfe
    obtain ⟨fe0, _, rfl⟩ := hfe
    intro hmem
    simp only [FusionExecutor.evictCache, List.mem_filter] at hmem
    exact (of_decide_eq_true hmem.2) rfl
  · exact findKey_eraseKey_self _ _
  · have h1 : (c.runFusionWithInputs sched build encode inp).2 =
        dispatchRuntime sched build
          (if (c.inputs_id_lookup_.lookupId (encode inp)).1.eviction = true
            then
              FusionExecutorCache.evictCache
                { c with
                    inputs_id_lookup_ :=
                      (c.inputs_id_lookup_.lookupId (encode inp)).2 }
                (c.inputs_id_lookup_.lookupId (encode inp)).1.evict_id
            else
              { c with
                  inputs_id_lookup_ :=
                    (c.inputs_id_lookup_.lookupId (encode inp)).2 })
          (c.inputs_id_lookup_.lookupId (encode inp)).1.id inp := rfl
    rw [h1]
    by_cases hb : (c.inputs_id_lookup_.lookupId (encode inp)).1.eviction = true
    · rw [if_pos hb]
      have h2 := dispatchRuntime_length sched build
        (FusionExecutorCache.evictCache
          { c with
              inputs_id_lookup_ :=
                (c.inputs_id_lookup_.lookupId (encode inp)).2 }
          (c.inputs_id_lookup_.lookupId (encode inp)).1.evict_id)
        (c.inputs_id_lookup_.lookupId (encode inp)).1.id inp

      have h3 : (FusionExecutorCache.evictCache
          { c with
              inputs_id_lookup_ :=
                (c.inputs_id_lookup_.lookupId (encode inp)).2 }
          (c.inputs_id_lookup_.lookupId
            (encode inp)).1.evict_id).kernel_runtimes_.length =
          c.kernel_runtimes_.length := by
        simp [FusionExecutorCache.evictCache]
      omega
    · rw [if_neg hb]
      exact dispatchRuntime_length sched build
        { c with
            inputs_id_lookup_ := (c.inputs_id_lookup_.lookupId (encode inp)).2 }
        (c.inputs_id_lookup_.lookupId (encode inp)).1.id inp

/-- Witness for C9 on the sample cache, evicting identity 1. -/
theorem c9_runtime_lifetime_witness :
    ((sampleExecutorCache.evictCache 1).kernel_runtimes_).length =
        sampleExecutorCache.kernel_runtimes_.length ∧
      (1 : Nat) ∉ (FusionExecutor.mk []).cached_ids ∧
      findKey 1 (sampleExecutorCache.evictCache 1).id_to_kernel_runtime_ =
        none :=
  ⟨(c9_runtime_lifetime sampleExecutorCache 1 sampleRuntime sampleSched
      sampleBuild sampleEncode sampleConfigA).1,
   (c9_runtime_lifetime sampleExecutorCache 1 sampleRuntime sampleSched
      sampleBuild sampleEncode sampleConfigA).2.2.2.2.1 (FusionExecutor.mk [])
     (by decide),
   (c9_runtime_lifetime sampleExecutorCache 1 sampleRuntime sampleSched
      sampleBuild sampleEncode sampleConfigA).2.2.2.2.2.1⟩

theorem getKernelRuntimeFor_reuse (sched : Nat → InputConfig → Bool)
    (build : InputConfig → FusionKernelRuntime) :
    ∀ (rts : List FusionKernelRuntime) (cp : InputConfig),
      (∃ rt ∈ rts, getMaybeHeuristicsFor sched rt cp ≠ none) →
      (getKernelRuntimeFor sched build rts cp).1 < rts.length ∧
        (getKernelRuntimeFor sched build rts cp).2.length = rts.length ∧
        ∀ x ∈ (getKernelRuntimeFor sched build rts cp).2, ∃ y ∈ rts,
          x.executors_ = y.executors_ ∧ x.segments_ = y.segments_ ∧
            x.heuristics_.spec_class_ = y.heuristics_.spec_class_ := by
  intro rts
  induction rts with
  | nil =>
      intro cp h
      simp at h
  | cons rt0 rest ih =>
      intro cp hex
      rcases hm : getMaybeHeuristicsFor sched rt0 cp with _ | h
      · have hex2 : ∃ rt ∈ rest, getMaybeHeuristicsFor sched rt cp ≠ none := by
          rcases hex with ⟨rt, hmem, hne⟩
          rcases List.mem_cons.mp hmem with rfl | hmem2
          · exact absurd hm hne
          · exact ⟨rt, hmem2, hne⟩
        obtain ⟨ih1, ih2, ih3⟩ := ih cp hex2
        simp only [getKernelRuntimeFor, hm]
        refine ⟨?_, ?_, ?_⟩
        · simp only [List.length_cons]
          omega
        · simp only [List.length_cons, ih2]
        · intro x hx
          rcases List.mem_cons.mp hx with rfl | hx2
          · exact ⟨x, List.mem_cons_self _ _, rfl, rfl, rfl⟩
          · obtain ⟨y, hy, hp⟩ := ih3 x hx2
            exact ⟨y, List.mem_cons_of_mem _ hy, hp⟩
      · simp only [getKernelRuntimeFor, hm]
        refine ⟨by simp, by simp, ?_⟩
        intro x hx
        rcases List.mem_cons.mp hx with rfl | hx2
        · exact ⟨rt0, List.mem_cons_self _ _, rfl, rfl, rfl⟩
        · exact ⟨x, List.mem_cons_of_mem _ hx2, rfl, rfl, rfl⟩

theorem getKernelRuntimeFor_build (sched : Nat → InputConfig → Bool)
    (build : InputConfig → FusionKernelRuntime) :
    ∀ (rts : List FusionKernelRuntime) (cp : InputConfig),
      (∀ rt ∈ rts, getMaybeHeuristicsFor sched rt cp = none) →
      (getKernelRuntimeFor sched build rts cp).1 = rts.length ∧
        (getKernelRuntimeFor sched build rts cp).2 = rts ++ [build cp] := by
  intro rts
  induction rts with
  | nil =>
      intro cp _
      exact ⟨rfl, rfl⟩
  | cons rt0 rest ih =>
      intro cp hall
      have hm : getMaybeHeuristicsFor sched rt0 cp = none :=
        hall rt0 (List.mem_cons_self _ _)
      obtain ⟨ih1, ih2⟩ := ih cp
        (fun rt hmem => hall rt (List.mem_cons_of_mem _ hmem))
      simp only [getKernelRuntimeFor, hm]
      constructor
      · simp only [List.length_cons, ih1]
      · rw [ih2]
        rfl

/-- C4: a new configuration differing from an already-served one only in
its extents (same rank, dtype, broadcast pattern and stride order) whose
segments are all schedulable reuses an existing `FusionKernelRuntime`:
`getKernelRuntimeFor` selects an existing index, the runtime list keeps its
length, and every runtime in the result keeps its executors (no
recompilation), segments and heuristic class — only launch parameters may
change; whereas when every existing runtime's heuristic class differs from
the new configuration in rank or in dtype, a brand-new runtime is
constructed and appended. -/
theorem c4_heuristic_reuse (sched : Nat → InputConfig → Bool)
    (build : InputConfig → FusionKernelRuntime)
    (rts : List FusionKernelRuntime) (c cp : InputConfig)
    (rt : FusionKernelRuntime) :
    (rt ∈ rts → rt.heuristics_.spec_class_ = specClass c →
      cp.rank = c.rank → cp.dtype = c.dtype → cp.broadcast = c.broadcast →
      cp.stride_order = c.stride_order →
      (∀ sg ∈ rt.segments_, sched sg cp = true) →
      (getKernelRuntimeFor sched build rts cp).1 < rts.length ∧
        (getKernelRuntimeFor sched build rts cp).2.length = rts.length ∧
        ∀ x ∈ (getKernelRuntimeFor sched build rts cp).2, ∃ y ∈ rts,
          x.executors_ = y.executors_ ∧ x.segments_ = y.segments_ ∧
            x.heuristics_.spec_class_ = y.heuristics_.spec_class_) ∧
    ((∀ y ∈ rts, y.heuristics_.spec_class_.rank ≠ cp.rank ∨
        y.heuristics_.spec_class_.dtype ≠ cp.dtype) →
      (getKernelRuntimeFor sched build rts cp).1 = rts.length ∧
        (getKernelRuntimeFor sched build rts cp).2 = rts ++ [build cp]) := by
  constructor
  · intro hmem hclass hr hd hb hs hsched
    apply getKernelRuntimeFor_reuse sched build rts cp
    refine ⟨rt, hmem, ?_⟩
    have hcls2 : specClass cp = rt.heuristics_.spec_class_ := by
      rw [hclass]
      show SpecClass.mk cp.rank cp.dtype cp.broadcast cp.stride_order =
        SpecClass.mk c.rank c.dtype c.broadcast c.stride_order
      rw [hr, hd, hb, hs]
    have hall : rt.segments_.all (fun sg => sched sg cp) = true :=
      List.all_eq_true.mpr hsched
    unfold getMaybeHeuristicsFor
    rw [if_pos ⟨hall, hcls2⟩]
    exact Option.noConfusion
  · intro hdiff
    apply getKernelRuntimeFor_build sched build rts cp
    intro y hy
    have hne : specClass cp ≠ y.heuristics_.spec_class_ := by
      intro heq
      rcases hdiff y hy with h | h
      · exact h (by rw [← heq]; rfl)
      · exact h (by rw [← heq]; rfl)
    unfold getMaybeHeuristicsFor
    rw [if_neg (fun hand => hne hand.2)]

/-- Witness for C4: one runtime built for a rank-2 dtype-7 class; a larger
same-class configuration is reused in place, while a rank-3 configuration
forces a brand-new runtime. -/
theorem c4_heuristic_reuse_witness :
    ((getKernelRuntimeFor sampleSched sampleBuild [sampleRuntime]
          ⟨2, 7, [false, false], [0, 1], [8, 9]⟩).1 < 1 ∧
        (getKernelRuntimeFor sampleSched sampleBuild [sampleRuntime]
          ⟨2, 7, [false, false], [0, 1], [8, 9]⟩).2.length = 1 ∧
        ∀ x ∈ (getKernelRuntimeFor sampleSched sampleBuild [sampleRuntime]
            ⟨2, 7, [false, false], [0, 1], [8, 9]⟩).2,
          ∃ y ∈ [sampleRuntime],
            x.executors_ = y.executors_ ∧ x.segments_ = y.segments_ ∧
              x.heuristics_.spec_class_ = y.heuristics_.spec_class_) ∧
      ((getKernelRuntimeFor sampleSched sampleBuild [sampleRuntime]
          ⟨3, 7, [false, false, false], [0, 1, 2], [8, 9, 10]⟩).1 = 1 ∧
        (getKernelRuntimeFor sampleSched sampleBuild [sampleRuntime]
          ⟨3, 7, [false, false, false], [0, 1, 2], [8, 9, 10]⟩).2 =
          [sampleRuntime] ++
            [sampleBuild ⟨3, 7, [false, false, false], [0, 1, 2],
              [8, 9, 10]⟩]) :=
  ⟨(c4_heuristic_reuse sampleSched sampleBuild [sampleRuntime]
      ⟨2, 7, [false, false], [0, 1], [4, 5]⟩
      ⟨2, 7, [false, false], [0, 1], [8, 9]⟩ sampleRuntime).1
    (by decide) (by decide) rfl rfl rfl rfl (by decide),
   (c4_heuristic_reuse sampleSched sampleBuild [sampleRuntime]
      ⟨2, 7, [false, false], [0, 1], [4, 5]⟩
      ⟨3, 7, [false, false, false], [0, 1, 2], [8, 9, 10]⟩ sampleRuntime).2
    (by decide)⟩

/-- C8: `getMaybeHeuristicsFor` surfaces scheduling failure as an absence,
never an exception: it is a total function into `Option`, returning `none`
exactly when some segment is unschedulable for the inputs or the derived
parameters do not match the stored heuristics' class, and otherwise the
heuristics value with launch parameters recomputed for the new extents. -/
theorem c8_maybe_heuristics_absence (sched : Nat → InputConfig → Bool)
    (rt : FusionKernelRuntime) (c : InputConfig) :
    (getMaybeHeuristicsFor sched rt c = none ↔
      (∃ sg ∈ rt.segments_, sched sg c = false) ∨
        specClass c ≠ rt.heuristics_.spec_class_) ∧
    (getMaybeHeuristicsFor sched rt c = none ∨
      getMaybeHeuristicsFor sched rt c =
        some { spec_class_ := rt.heuristics_.spec_class_,
               launch_params_ := [totalElements c] }) := by
  constructor
  · by_cases hcond : rt.segments_.all (fun sg => sched sg c) = true ∧
        specClass c = rt.heuristics_.spec_class_
    · unfold getMaybeHeuristicsFor
      rw [if_pos hcond]
      constructor
      · intro h
        exact Option.noConfusion h
      · intro h
        exfalso
        rcases h with ⟨sg, hsg, hf⟩ | hne
        · have := List.all_eq_true.mp hcond.1 sg hsg
          rw [hf] at this
          exact Bool.noConfusion this
        · exact hne hcond.2
    · unfold getMaybeHeuristicsFor
      rw [if_neg hcond]
      constructor
      · intro _
        by_cases hcl : specClass c = rt.heuristics_.spec_class_
        · left
          have hna : ¬ rt.segments_.all (fun sg => sched sg c) = true :=
            fun ha => hcond ⟨ha, hcl⟩
          simp only [List.all_eq_true] at hna
          push_neg at hna
          obtain ⟨sg, hsg, hne⟩ := hna
          exact ⟨sg, hsg, Bool.eq_false_iff.mpr hne⟩
        · right
          exact hcl
      · intro _
        rfl
  · unfold getMaybeHeuristicsFor
    by_cases hcond : rt.segments_.all (fun sg => sched sg c) = true ∧
        specClass c = rt.heuristics_.spec_class_
    · right
      rw [if_pos hcond]
    · left
      rw [if_neg hcond]

/-- Witness for C8: on the sample runtime, an unschedulable oracle yields
`none` and the matching configuration yields the heuristics value. -/
theorem c8_maybe_heuristics_absence_witness :
    (getMaybeHeuristicsFor (fun _ _ => false) sampleRuntime
        ⟨2, 7, [false, false], [0, 1], [8, 9]⟩ = none ↔
      (∃ sg ∈ sampleRuntime.segments_,
          (fun _ _ => false : Nat → InputConfig → Bool) sg
            ⟨2, 7, [false, false], [0, 1], [8, 9]⟩ = false) ∨
        specClass ⟨2, 7, [false, false], [0, 1], [8, 9]⟩ ≠
          sampleRuntime.heuristics_.spec_class_) :=
  (c8_maybe_heuristics_absence (fun _ _ => false) sampleRuntime
    ⟨2, 7, [false, false], [0, 1], [8, 9]⟩).1

/-- C10: the profiling introspection accessors assert their preconditions
rather than returning defaults.  `getMostRecentExecutorLog` halts (the
modelled TORCH_INTERNAL_ASSERT error) whenever profiling is disabled, and
`getMostRecentExecutorInfo` halts whenever `most_recent_runtime_` is still
null; under the preconditions — profiling enabled, a runtime recorded —
both assertion branches are unreachable and the stored log is returned. -/
theorem c10_profiling_asserts :
    (∀ rt : FusionKernelRuntime, rt.profiling_ = false →
      rt.getMostRecentExecutorLog =
        Except.error profilingAssertMsg) ∧
    (∀ c : FusionExecutorCache, c.most_recent_runtime_ = none →
      c.getMostRecentExecutorInfo =
        Except.error nullRuntimeAssertMsg) ∧
    (∀ rt : FusionKernelRuntime, rt.profiling_ = true →
      rt.getMostRecentExecutorLog =
        Except.ok rt.most_recent_executor_log_) ∧
    (∀ (c : FusionExecutorCache) (rt : FusionKernelRuntime),
      c.most_recent_runtime_ = some rt → rt.profiling_ = true →
      c.getMostRecentExecutorInfo =
        Except.ok rt.most_recent_executor_log_) := by
  refine ⟨?_, ?_, ?_, ?_⟩
  · intro rt h
    unfold FusionKernelRuntime.getMostRecentExecutorLog
    rw [h]
    rfl
  · intro c h
    unfold FusionExecutorCache.getMostRecentExecutorInfo
    rw [h]
  · intro rt h
    unfold FusionKernelRuntime.getMostRecentExecutorLog
    rw [h]
    rfl
  · intro c rt h1 h2
    unfold FusionExecutorCache.getMostRecentExecutorInfo
    rw [h1]
    show rt.getMostRecentExecutorLog = Except.ok rt.most_recent_executor_log_
    unfold FusionKernelRuntime.getMostRecentExecutorLog
    rw [h2]
    rfl

/-- Witness for C10: all four branches at concrete states. -/
theorem c10_profiling_asserts_witness :
    sampleRuntime.getMostRecentExecutorLog =
        Except.error profilingAssertMsg ∧
      sampleExecutorCache.getMostRecentExecutorInfo =
        Except.error nullRuntimeAssertMsg ∧
      sampleRuntimeProfiled.getMostRecentExecutorLog =
        Except.ok sampleRuntimeProfiled.most_recent_executor_log_ ∧
      sampleExecutorCacheProfiled.getMostRecentExecutorInfo =
        Except.ok sampleRuntimeProfiled.most_recent_executor_log_ :=
  ⟨c10_profiling_asserts.1 sampleRuntime rfl,
   c10_profiling_asserts.2.1 sampleExecutorCache rfl,
   c10_profiling_asserts.2.2.1 sampleRuntimeProfiled rfl,
   c10_profiling_asserts.2.2.2 sampleExecutorCacheProfiled
     sampleRuntimeProfiled rfl rfl⟩

theorem IsPermOf.len {p : List Nat} {n : Nat} (h : IsPermOf p n) :
    p.length = n := by
  have := h.length_eq
  simpa using this

theorem IsPermOf.mem {p : List Nat} {n : Nat} (h : IsPermOf p n) {m : Nat}
    (hm : m < n) : m ∈ p :=
  h.mem_iff.mpr (List.mem_range.mpr hm)

theorem IsPermOf.elem_lt {p : List Nat} {n : Nat} (h : IsPermOf p n)
    {i : Nat} (hi : i < p.length) : p[i] < n :=
  List.mem_range.mp (h.mem_iff.mp (List.getElem_mem hi))

theorem IsPermOf.nodup {p : List Nat} {n : Nat} (h : IsPermOf p n) :
    p.Nodup :=
  h.nodup_iff.mpr (List.nodup_range n)

theorem invPerm_length (p : List Nat) : (invPerm p).length = p.length := by
  simp [invPerm]

theorem applyPermL_length (p l : List Nat) :
    (applyPermL p l).length = p.length := by
  simp [applyPermL]

theorem invPerm_getElem (p : List Nat) {j : Nat}
    (hj : j < (invPerm p).length) : (invPerm p)[j] = List.indexOf j p := by
  simp [invPerm]

theorem invPerm_isPermOf {p : List Nat} {n : Nat} (h : IsPermOf p n) :
    IsPermOf (invPerm p) n := by
  have hlen : (invPerm p).length = n := by rw [invPerm_length, h.len]
  have hnd : (invPerm p).Nodup := by
    apply List.Nodup.map_on ?_ (List.nodup_range _)
    intro x hx y hy hxy
    have hx2 : x < n := by
      have := List.mem_range.mp hx
      rwa [h.len] at this
    have hy2 : y < n := by
      have := List.mem_range.mp hy
      rwa [h.len] at this
    exact (List.indexOf_inj (h.mem hx2) (h.mem hy2)).mp hxy
  have hsub : invPerm p ⊆ List.range n := by
    intro a ha
    simp only [invPerm, List.mem_map, List.mem_range] at ha
    obtain ⟨j, hj, rfl⟩ := ha
    rw [List.mem_range]
    have hj2 : j < n := by rwa [h.len] at hj
    have := List.indexOf_lt_length.mpr (h.mem hj2)
    rwa [h.len] at this
  exact (hnd.subperm hsub).perm_of_length_le (by rw [hlen]; simp)

theorem applyPermL_invPerm_applyPermL {p : List Nat} {n : Nat}
    (h : IsPermOf p n) {l : List Nat} (hl : l.length = n) :
    applyPermL (invPerm p) (applyPermL p l) = l := by
  apply List.ext_getElem
  · rw [applyPermL_length, invPerm_length, h.len, hl]
  · intro i h1 h2
    have hiplen : i < (invPerm p).length := by
      rw [applyPermL_length] at h1
      exact h1
    have hinv : i < p.length := by rwa [invPerm_length] at hiplen
    have hin : i < n := by rwa [h.len] at hinv
    have hidx : List.indexOf i p < p.length :=
      List.indexOf_lt_length.mpr (h.mem hin)
    have hXlen : (applyPermL p l).length = p.length := applyPermL_length p l
    calc (applyPermL (invPerm p) (applyPermL p l))[i]
        = (applyPermL p l).getD ((invPerm p)[i]) 0 := by
          simp [applyPermL, List.getElem_map]
      _ = (applyPermL p l).getD (List.indexOf i p) 0 := by
          rw [invPerm_getElem p hiplen]
      _ = (applyPermL p l)[List.indexOf i p] := by
          apply List.getD_eq_getElem
      _ = l.getD (p[List.indexOf i p]) 0 := by
          simp [applyPermL, List.getElem_map]
      _ = l.getD i 0 := by rw [List.getElem_indexOf hidx]
      _ = l[i] := List.getD_eq_getElem l 0 (by rw [hl]; exact hin)

theorem invPerm_invPerm {p : List Nat} {n : Nat} (h : IsPermOf p n) :
    invPerm (invPerm p) = p := by
  have hinv := invPerm_isPermOf h
  apply List.ext_getElem
  · rw [invPerm_length, invPerm_length]
  · intro i h1 h2
    have hip : i < p.length := h2
    rw [invPerm_getElem (invPerm p) h1]
    have hplen : getElem p i hip < (invPerm p).length := by
      rw [invPerm_length, h.len]
      exact h.elem_lt hip
    have e1 := List.indexOf_getElem hinv.nodup (getElem p i hip) hplen
    rw [invPerm_getElem p hplen] at e1
    have e3 := List.indexOf_getElem h.nodup i hip
    rw [e3] at e1
    exact e1

theorem permuteTensor_roundtrip {p : List Nat} {n : Nat} (h : IsPermOf p n)
    {t : Tensor} (ht : t.dims.length = n) :
    semEq (permuteTensor (invPerm p) (permuteTensor p t)) t := by
  constructor
  · show applyPermL (invPerm p) (applyPermL p t.dims) = t.dims
    exact applyPermL_invPerm_applyPermL h ht
  · intro idx hidx
    show t.at_
        (applyPermL (invPerm p) (applyPermL (invPerm (invPerm p)) idx)) =
      t.at_ idx
    rw [invPerm_invPerm h]
    congr 1
    apply applyPermL_invPerm_applyPermL h
    have hd : (permuteTensor (invPerm p)
        (permuteTensor p t)).dims.length = n := by
      show (applyPermL (invPerm p) (applyPermL p t.dims)).length = n
      rw [applyPermL_length, invPerm_length, h.len]
    exact hidx.trans hd

theorem permuteTensor_roundtrip_inv {p : List Nat} {n : Nat}
    (h : IsPermOf p n) {t : Tensor} (ht : t.dims.length = n) :
    semEq (permuteTensor p (permuteTensor (invPerm p) t)) t := by
  have h2 := permuteTensor_roundtrip (invPerm_isPermOf h) ht
  rw [invPerm_invPerm h] at h2
  exact h2

/-- C7: when all inputs share a common non-default stride order (the
support flag is set), and the compiled path computes the permuted variant
of the direct graph semantics (for each output, the stored output
permutation's inverse applied to the direct result — the collaborator
guarantee of the permuted graph translation), `runGraphWithInputs` —
permute inputs, run, apply the pointwise or reduction output permutation —
is semantically equal, output by output, to running the unpermuted graph
directly; when no common permutation exists, inputs are passed through
unpermuted and outputs returned as produced. -/
theorem c7_permutation_roundtrip (gc : GraphCache)
    (fec direct : List Tensor → List (Bool × Tensor))
    (inputs : List Tensor) :
    ((gc.support_permutation_ = true) →
      (fec (inputs.map (permuteTensor gc.input_permutation_)) =
        (direct inputs).map
          (fun o => (o.1, permuteTensor (invPerm (permFor gc o)) o.2))) →
      (∀ o ∈ direct inputs, IsPermOf (permFor gc o) o.2.dims.length) →
      List.Forall₂ semEq (runGraphWithInputs gc fec inputs)
        ((direct inputs).map Prod.snd)) ∧
    (gc.support_permutation_ = false →
      runGraphWithInputs gc fec inputs = (fec inputs).map Prod.snd) := by
  constructor
  · intro hsup hcol hperm
    unfold runGraphWithInputs
    rw [if_pos (show gc.requiresPermutation = true from hsup), hcol,
      List.map_map]
    rw [List.forall₂_map_right_iff, List.forall₂_map_left_iff,
      List.forall₂_same]
    intro o ho
    show semEq
      (permuteTensor
        (permFor gc (o.1, permuteTensor (invPerm (permFor gc o)) o.2))
        (permuteTensor (invPerm (permFor gc o)) o.2)) o.2
    have hpf : permFor gc (o.1, permuteTensor (invPerm (permFor gc o)) o.2) =
        permFor gc o := rfl
    rw [hpf]
    exact permuteTensor_roundtrip_inv (hperm o ho) rfl
  · intro hsup
    unfold runGraphWithInputs
    rw [if_neg]
    intro hcontra
    have : gc.support_permutation_ = true := hcontra
    rw [hsup] at this
    exact Bool.noConfusion this

/-- Witness for C7: the permuted pipeline is semantically equal to the
direct result on the sample graph, and with the support flag cleared the
tensors pass through unpermuted. -/
theorem c7_permutation_roundtrip_witness :
    List.Forall₂ semEq
        (runGraphWithInputs sampleGraphCache sampleFec [sampleTensor])
        ((sampleDirect [sampleTensor]).map Prod.snd) ∧
      runGraphWithInputs
          { sampleGraphCache with support_permutation_ := false }
          sampleFec [sampleTensor] =
        (sampleFec [sampleTensor]).map Prod.snd :=
  ⟨(c7_permutation_roundtrip sampleGraphCache sampleFec sampleDirect
      [sampleTensor]).1 rfl rfl (by decide),
   (c7_permutation_roundtrip
      { sampleGraphCache with support_permutation_ := false }
      sampleFec sampleDirect [sampleTensor]).2 rfl⟩
